import Mathlib

/-!
Verification of the branch-and-bound implementations of this repository
(`src/strategies/6-branch-and-bound/`): the 0/1 knapsack solver
(`KnapsackBranchBound.c`), the traveling-salesman solver
(`TravelingSalesman.c`), the job-assignment solver (`JobAssignment.c`) and
the facility-location solver (`FacilityLocation.c`).

The C sources are embedded shallowly:

* the binary-heap priority queue, written out twice in C (a max-heap keyed
  on `bound` for the knapsack, a min-heap keyed on `bound` for TSP,
  assignment and facility location), is embedded once, generically over a
  linear order on the key; the knapsack instance uses the order dual, which
  makes the generic comparisons literally the comparisons of the C max-heap
  code (`<=` to stop the bubble-up, `>` to pick the larger child, `>=` to
  stop the bubble-down);
* C `int` values become `Int`, sizes and indices become `Nat`;
* C `double` values (the knapsack bound, every facility-location cost)
  become `Rat`, i.e. exact arithmetic in place of floating point;
  `DBL_MAX` becomes the exact rational value of that double;
* a C array is a `List` of its meaningful prefix; reads mirror the C index
  expressions via `List.getD`;
* each `while` loop of a solver becomes a step function on an explicit
  state record plus a fuel-indexed iterator; one step is one iteration of
  the C loop body.  The TSP state carries one ghost field, `popped`, the
  history of nodes returned by `pq_pop`; it is written, never read, and
  exists only so that invariants about the explored set can be stated.
-/

namespace BnB

/-! The priority queue of `KnapsackBranchBound.c` lines 88-148 and of
`TravelingSalesman.c` / `JobAssignment.c` / `FacilityLocation.c` lines
69-158: a binary heap in an array, keyed on each node's `bound` field.
`key` abstracts the keyed field together with the direction of the heap:
instantiating `β` with a dual order yields the max-heap variant. -/

variable {α : Type} {β : Type} [LinearOrder β]

/-- Exchange of two array cells, as both C heaps do with a temporary. -/
def swap (l : List α) (i j : Nat) : List α :=
  match l[i]?, l[j]? with
  | some a, some b => (l.set i b).set j a
  | _, _ => l

@[simp]
theorem swap_length (l : List α) (i j : Nat) : (swap l i j).length = l.length := by
  unfold swap
  cases hi : l[i]? <;> cases hj : l[j]? <;> simp

/-- Index of the child picked by the bubble-down loop: the right child when
it exists and its key is strictly smaller, the left child otherwise
(mirrors `smallest` in `pq_pop`; under a dual order, `largest`). -/
def pickChild (key : α → β) (l : List α) (i : Nat) : Nat :=
  if h2 : 2 * i + 2 < l.length then
    if hl : 2 * i + 1 < l.length then
      if key (l.get ⟨2 * i + 2, h2⟩) < key (l.get ⟨2 * i + 1, hl⟩) then 2 * i + 2
      else 2 * i + 1
    else 2 * i + 1
  else 2 * i + 1

theorem lt_pickChild (key : α → β) (l : List α) (i : Nat) : i < pickChild key l i := by
  unfold pickChild
  repeat' split
  all_goals omega

theorem pickChild_lt_length (key : α → β) (l : List α) (i : Nat)
    (h : 2 * i + 1 < l.length) : pickChild key l i < l.length := by
  unfold pickChild
  repeat' split
  all_goals omega

/-- Bubble-up loop of `pq_push`: while the entry at `i` has a strictly
smaller key than its parent, exchange them and continue from the parent.
The loop index strictly decreases, so a structural fuel of `i` steps (see
`siftUp`) runs the loop to its C termination condition. -/
def siftUpAux (key : α → β) : Nat → List α → Nat → List α
  | 0, l, _ => l
  | fuel + 1, l, i =>
    if h : 0 < i ∧ i < l.length then
      have hp : (i - 1) / 2 < l.length :=
        lt_of_le_of_lt (le_trans (Nat.div_le_self _ 2) (Nat.pred_le i)) h.2
      if key (l.get ⟨(i - 1) / 2, hp⟩) ≤ key (l.get ⟨i, h.2⟩) then l
      else siftUpAux key fuel (swap l ((i - 1) / 2) i) ((i - 1) / 2)
    else l

/-- The bubble-up loop started at index `i`, with enough fuel. -/
def siftUp (key : α → β) (l : List α) (i : Nat) : List α :=
  siftUpAux key i l i

/-- Embedding of `pq_push`: append at position `size`, then bubble up. -/
def pq_push (key : α → β) (l : List α) (x : α) : List α :=
  siftUp key (l ++ [x]) l.length

/-- Bubble-down loop of `pq_pop`: while a child exists, pick the
smaller-keyed child; stop if the entry at `i` is not strictly larger,
otherwise exchange and continue from the child.  The loop index strictly
increases and stays below the length, so a structural fuel of `l.length`
steps (see `siftDown`) runs the loop to its C termination condition. -/
def siftDownAux (key : α → β) : Nat → List α → Nat → List α
  | 0, l, _ => l
  | fuel + 1, l, i =>
    if hl : 2 * i + 1 < l.length then
      have hi : i < l.length := by omega
      have hc : pickChild key l i < l.length := pickChild_lt_length key l i hl
      if key (l.get ⟨i, hi⟩) ≤ key (l.get ⟨pickChild key l i, hc⟩) then l
      else siftDownAux key fuel (swap l i (pickChild key l i)) (pickChild key l i)
    else l

/-- The bubble-down loop started at index `i`, with enough fuel. -/
def siftDown (key : α → β) (l : List α) (i : Nat) : List α :=
  siftDownAux key l.length l i

/-- Embedding of `pq_pop`: return the root, move the last entry to the
root, shrink by one, bubble down from the root.  The C function has
undefined behaviour on an empty queue (both drivers guard with
`pq_empty`); the embedding returns `none` there. -/
def pq_pop (key : α → β) (l : List α) : Option (α × List α) :=
  match l with
  | [] => none
  | [top] => some (top, [])
  | top :: b :: rest =>
    some (top, siftDown key ((b :: rest).getLast (by simp) :: (b :: rest).dropLast) 0)

end BnB

namespace Knapsack

/-! Embedding of `KnapsackBranchBound.c`. -/

/-- The `Item` struct (weight, value, original index, value-to-weight
ratio).  The `ratio` field is stored, exactly as in C; the demonstration
programs always set it to `value / weight`. -/
structure Item where
  weight : Nat
  value : Nat
  index : Nat
  ratio : Rat
deriving DecidableEq

/-- Default used to mirror a C array read; never reached on the index
ranges the solver uses. -/
def dfltItem : Item := ⟨0, 0, 0, 0⟩

/-- The `KnapsackNode` struct.  `included` is the `included[MAX_ITEMS]`
flag array. -/
structure KnapsackNode where
  level : Nat
  profit : Nat
  weight : Nat
  bound : Rat
  included : List Bool
deriving DecidableEq

/-- Key of the knapsack priority queue: a MAX-heap on `bound`, embedded as
a min-heap on the dual order. -/
def kKey (nd : KnapsackNode) : OrderDual Rat := OrderDual.toDual nd.bound

/-- The greedy loop of `calculate_bound` (lines 160-170): walk the items
from `node->level` on, take each whole item that fits, and close with the
fractional part `ratio * remaining_capacity` of the first item that does
not fit. -/
def fracRemainder : List Item → Nat → Rat
  | [], _ => 0
  | it :: rest, remaining =>
    if it.weight ≤ remaining then (it.value : Rat) + fracRemainder rest (remaining - it.weight)
    else it.ratio * (remaining : Rat)

/-- Embedding of `calculate_bound` (lines 153-173): zero when the node
meets or exceeds the capacity, otherwise the accrued profit plus the
fractional-relaxation value of the remaining items. -/
def calculate_bound (items : List Item) (capacity : Nat) (node : KnapsackNode) : Rat :=
  if capacity ≤ node.weight then 0
  else (node.profit : Rat) + fracRemainder (items.drop node.level) (capacity - node.weight)

/-- Stable insertion into a list sorted by non-increasing `ratio`: the
inserted element goes in front of the first element whose ratio is not
larger (so in front of elements of equal ratio, which keeps the sort
stable). -/
def insertByRatio (a : Item) : List Item → List Item
  | [] => [a]
  | b :: l => if b.ratio ≤ a.ratio then a :: b :: l else b :: insertByRatio a l

/-- Embedding of the `qsort(items, n, sizeof(Item), compare_items)` call
(line 193): a sort by non-increasing `ratio` (the comparator of lines
79-86).  `qsort` leaves the relative order of equal keys unspecified; the
embedding commits to the stable order. -/
def sortByRatio : List Item → List Item
  | [] => []
  | a :: l => insertByRatio a (sortByRatio l)

/-- The mutable program state read and written by `solve_knapsack`: the
global `items` array (its first `n` entries), `n`, `capacity`, the queue,
and the global incumbent and counters. -/
structure KState where
  items : List Item
  n : Nat
  capacity : Nat
  pq : List KnapsackNode
  max_profit : Nat
  best_solution : List Bool
  nodes_explored : Nat
  nodes_pruned : Nat
deriving DecidableEq

/-- One iteration of the `while (!pq_empty(&pq))` loop of `solve_knapsack`
(lines 220-280): pop, count, prune against the incumbent, record a leaf
that strictly improves, or branch into the include child (when it fits)
and the exclude child, pushing each child whose fresh bound strictly
exceeds the incumbent.  On an empty queue this is the identity. -/
def kStep (s : KState) : KState :=
  match BnB.pq_pop kKey s.pq with
  | none => s
  | some (current, rest) =>
    let s := { s with pq := rest, nodes_explored := s.nodes_explored + 1 }
    if current.bound ≤ (s.max_profit : Rat) then
      { s with nodes_pruned := s.nodes_pruned + 1 }
    else if current.level = s.n then
      if s.max_profit < current.profit then
        { s with max_profit := current.profit, best_solution := current.included }
      else s
    else
      let it := s.items.getD current.level dfltItem
      let s1 :=
        if current.weight + it.weight ≤ s.capacity then
          let inc0 : KnapsackNode :=
            { level := current.level + 1
              profit := current.profit + it.value
              weight := current.weight + it.weight
              bound := 0
              included := current.included.set current.level true }
          let inc := { inc0 with bound := calculate_bound s.items s.capacity inc0 }
          if (s.max_profit : Rat) < inc.bound then { s with pq := BnB.pq_push kKey s.pq inc }
          else { s with nodes_pruned := s.nodes_pruned + 1 }
        else s
      let exc0 : KnapsackNode := { current with level := current.level + 1 }
      let exc := { exc0 with bound := calculate_bound s1.items s1.capacity exc0 }
      if (s1.max_profit : Rat) < exc.bound then { s1 with pq := BnB.pq_push kKey s1.pq exc }
      else { s1 with nodes_pruned := s1.nodes_pruned + 1 }

/-- The `while` loop itself, with explicit fuel: stop when the queue is
empty, else run one iteration and recurse. -/
def kRun : Nat → KState → KState
  | 0, s => s
  | fuel + 1, s => if s.pq.isEmpty then s else kRun fuel (kStep s)

/-- The setup part of `solve_knapsack` (lines 186-218): reset the
incumbent, the best-solution flags and the counters, sort the items by
ratio, build the root node, compute its bound, and seed the queue.
`MAX_ITEMS` is 20, so the flag arrays have 20 entries. -/
def initKState (items : List Item) (capacity : Nat) : KState :=
  let sorted := sortByRatio items
  let root0 : KnapsackNode :=
    { level := 0, profit := 0, weight := 0, bound := 0, included := List.replicate 20 false }
  let root := { root0 with bound := calculate_bound sorted capacity root0 }
  { items := sorted
    n := items.length
    capacity := capacity
    pq := [root]
    max_profit := 0
    best_solution := List.replicate 20 false
    nodes_explored := 0
    nodes_pruned := 0 }

/-- Embedding of `solve_knapsack` (lines 178-302): setup, then the search
loop, run with the given fuel. -/
def solve_knapsack (items : List Item) (capacity : Nat) (fuel : Nat) : KState :=
  kRun fuel (initKState items capacity)

/-- Weight of the subset of `items` selected by the bit mask, as
accumulated by the inner loop of `brute_force_knapsack`. -/
def maskWeight (items : List Item) (mask : Nat) : Nat :=
  ((List.range items.length).map
    (fun i => if mask.testBit i then (items.getD i dfltItem).weight else 0)).sum

/-- Profit of the subset of `items` selected by the bit mask. -/
def maskProfit (items : List Item) (mask : Nat) : Nat :=
  ((List.range items.length).map
    (fun i => if mask.testBit i then (items.getD i dfltItem).value else 0)).sum

/-- Embedding of `brute_force_knapsack` (lines 307-351): enumerate all
`2^n` bit masks and keep the largest profit whose weight fits. -/
def brute_force_knapsack (items : List Item) (capacity : Nat) : Nat :=
  (List.range (2 ^ items.length)).foldl
    (fun best mask =>
      if maskWeight items mask ≤ capacity ∧ best < maskProfit items mask then
        maskProfit items mask
      else best) 0

end Knapsack

namespace TSP

/-! Embedding of `TravelingSalesman.c`. -/

/-- The `INF` macro (`INT_MAX`). -/
def INF : Int := 2147483647

/-- The `TSPNode` struct.  `path` is the meaningful prefix
`path[0..level)` of the C array; `visited` the `visited[MAX_CITIES]`
array. -/
structure TSPNode where
  path : List Nat
  visited : List Bool
  cost : Int
  bound : Int
  level : Nat
deriving DecidableEq

/-- Key of the TSP priority queue: a min-heap on `bound`. -/
def tKey (nd : TSPNode) : Int := nd.bound

/-- Inner loop of `calculate_bound` (lines 144-154): the two smallest
edge costs out of city `i`, with the C quirk that `min2` only takes a
value different from `min1`. -/
def minTwo (graph : Nat → Nat → Int) (n i : Nat) : Int × Int :=
  (List.range n).foldl
    (fun mm j =>
      if i ≠ j then
        if graph i j < mm.1 then (graph i j, mm.1)
        else if graph i j < mm.2 ∧ graph i j ≠ mm.1 then (mm.1, graph i j)
        else mm
      else mm)
    (INF, INF)

/-- Embedding of the TSP `calculate_bound` (lines 136-168).  For each city
that is unvisited or is the last city of the path, add `min1` when the
city is a visited non-last city (dead branch under the outer condition),
else `(min1+min2)/2` when `min2` is not `INF`, else `min1`.  C integer
division truncates toward zero, hence `Int.tdiv`. -/
def calculate_bound (graph : Nat → Nat → Int) (n : Nat) (node : TSPNode) : Int :=
  (List.range n).foldl
    (fun bound i =>
      let lastCity := node.path.getD (node.level - 1) 0
      if ¬ node.visited.getD i false ∨ (0 < node.level ∧ i = lastCity) then
        let m := minTwo graph n i
        if node.visited.getD i false ∧ 0 < node.level ∧ i ≠ lastCity then bound + m.1
        else if m.2 ≠ INF then bound + Int.tdiv (m.1 + m.2) 2
        else bound + m.1
      else bound)
    node.cost

/-- The mutable state of `solve_tsp`: queue, incumbent cost and path, and
counters.  `popped` is a ghost field holding the nodes `pq_pop` has
returned so far, in order; it is written by the step function and read by
nothing, and exists only so invariants about the explored set can be
stated. -/
structure TState where
  pq : List TSPNode
  best_cost : Int
  best_path : List Nat
  nodes_explored : Nat
  nodes_pruned : Nat
  popped : List TSPNode
deriving DecidableEq

/-- Child construction of the branching loop (lines 251-256): extend the
path by `city`, mark it visited, bump the level, add the edge cost from
the previous last city, and recompute the bound on the child. -/
def tChild (graph : Nat → Nat → Int) (n : Nat) (current : TSPNode) (city : Nat) : TSPNode :=
  let nd : TSPNode :=
    { path := current.path ++ [city]
      visited := current.visited.set city true
      cost := current.cost + graph (current.path.getD (current.level - 1) 0) city
      bound := 0
      level := current.level + 1 }
  { nd with bound := calculate_bound graph n nd }

/-- Default used to mirror a C array read; never reached in real runs. -/
def dfltTNode : TSPNode := ⟨[], [], 0, 0, 0⟩

/-- One iteration of the `while (!pq_empty(&pq))` loop of `solve_tsp`
(lines 204-266): pop, count, prune when `bound >= best_cost`, on a
complete path add the return edge `graph[path[n-1]][0]` and compare the
total against the incumbent, otherwise branch to each unvisited city
`1..n-1`, pushing each child whose bound is below the incumbent. -/
def tStep (graph : Nat → Nat → Int) (n : Nat) (s : TState) : TState :=
  match BnB.pq_pop tKey s.pq with
  | none => s
  | some (current, rest) =>
    let s := { s with
               pq := rest
               nodes_explored := s.nodes_explored + 1
               popped := s.popped ++ [current] }
    if s.best_cost ≤ current.bound then { s with nodes_pruned := s.nodes_pruned + 1 }
    else if current.level = n then
      let total := current.cost + graph (current.path.getD (n - 1) 0) 0
      if total < s.best_cost then
        { s with best_cost := total, best_path := current.path ++ [0] }
      else s
    else
      (List.range n).foldl
        (fun s1 city =>
          if city ≠ 0 ∧ ¬ current.visited.getD city false then
            let child := tChild graph n current city
            if child.bound < s1.best_cost then { s1 with pq := BnB.pq_push tKey s1.pq child }
            else { s1 with nodes_pruned := s1.nodes_pruned + 1 }
          else s1)
        s

/-- The root node (lines 187-193): path `[0]`, city 0 visited, cost 0,
level 1, bound computed.  `MAX_CITIES` is 20. -/
def tRoot (graph : Nat → Nat → Int) (n : Nat) : TSPNode :=
  let nd : TSPNode :=
    { path := [0]
      visited := (List.replicate 20 false).set 0 true
      cost := 0
      bound := 0
      level := 1 }
  { nd with bound := calculate_bound graph n nd }

/-- The setup part of `solve_tsp` (lines 181-202): reset incumbent cost
and counters and seed the queue with the root.  The global `best_path`
array is not reset by the C code, so its pre-run residual content `bp0`
is an explicit parameter. -/
def tInit (graph : Nat → Nat → Int) (n : Nat) (bp0 : List Nat) : TState :=
  { pq := [tRoot graph n]
    best_cost := INF
    best_path := bp0
    nodes_explored := 0
    nodes_pruned := 0
    popped := [] }

/-- The `while` loop of `solve_tsp`, with explicit fuel. -/
def tRun (graph : Nat → Nat → Int) (n : Nat) : Nat → TState → TState
  | 0, s => s
  | fuel + 1, s => if s.pq.isEmpty then s else tRun graph n fuel (tStep graph n s)

/-- Embedding of `solve_tsp` (lines 173-280): setup, then the search
loop. -/
def solve_tsp (graph : Nat → Nat → Int) (n : Nat) (bp0 : List Nat) (fuel : Nat) : TState :=
  tRun graph n fuel (tInit graph n bp0)

/-- Cost of consecutive edges along a list of cities (no return edge). -/
def pathCost (graph : Nat → Nat → Int) : List Nat → Int
  | a :: b :: rest => graph a b + pathCost graph (b :: rest)
  | _ => 0

/-- The true objective value of the tour a complete path represents: its
edge costs plus the closing edge back to city 0. -/
def tourCost (graph : Nat → Nat → Int) (p : List Nat) : Int := pathCost graph (p ++ [0])

/-- The nodes the search tree of `solve_tsp` can construct: the root, and
every child the branching loop builds from a constructed node (level not
yet `n`, city nonzero, in range and unvisited).  Pruning is not modelled
here, so this overapproximates the constructed set, which is all the
universally quantified node invariants need. -/
inductive TReach (graph : Nat → Nat → Int) (n : Nat) : TSPNode → Prop where
  | root : TReach graph n (tRoot graph n)
  | child (nd : TSPNode) (city : Nat) :
      TReach graph n nd → nd.level ≠ n → 1 ≤ city → city < n →
      nd.visited.getD city false = false →
      TReach graph n (tChild graph n nd city)

end TSP

namespace Assign

/-! Embedding of `JobAssignment.c`. -/

/-- The `INF` macro (`INT_MAX`). -/
def INF : Int := 2147483647

/-- The `AssignmentNode` struct.  `assignment.get j` is the job given to
worker `j` (`-1` while undecided); `worker_used.get j` says whether job
`j` is already taken (the C field name notwithstanding, it is indexed by
job). -/
structure AssignmentNode where
  level : Nat
  cost : Int
  bound : Int
  assignment : List Int
  worker_used : List Bool
deriving DecidableEq

/-- Key of the assignment priority queue: a min-heap on `bound`. -/
def aKey (nd : AssignmentNode) : Int := nd.bound

/-- Embedding of the assignment `calculate_bound` (lines 134-154): the
accrued cost plus, for every not-yet-assigned worker, the cheapest cost to
any job not yet taken (skipped if no such job). -/
def calculate_bound (cost_matrix : Nat → Nat → Int) (n : Nat) (node : AssignmentNode) : Int :=
  (List.range n).foldl
    (fun bound worker =>
      if node.level ≤ worker then
        let m :=
          (List.range n).foldl
            (fun mc job =>
              if ¬ node.worker_used.getD job false ∧ cost_matrix worker job < mc then
                cost_matrix worker job
              else mc)
            INF
        if m ≠ INF then bound + m else bound
      else bound)
    node.cost

/-- The mutable state of `solve_assignment`. -/
structure AState where
  pq : List AssignmentNode
  min_cost : Int
  best_assignment : List Int
  nodes_explored : Nat
  nodes_pruned : Nat
deriving DecidableEq

/-- Child construction of the branching loop (lines 241-246): give job
`job` to worker `current.level`. -/
def aChild (cost_matrix : Nat → Nat → Int) (n : Nat) (current : AssignmentNode)
    (job : Nat) : AssignmentNode :=
  let nd : AssignmentNode :=
    { level := current.level + 1
      assignment := current.assignment.set current.level (job : Int)
      worker_used := current.worker_used.set job true
      cost := current.cost + cost_matrix current.level job
      bound := 0 }
  { nd with bound := calculate_bound cost_matrix n nd }

/-- One iteration of the `while (!pq_empty(&pq))` loop of
`solve_assignment` (lines 196-256). -/
def aStep (cost_matrix : Nat → Nat → Int) (n : Nat) (s : AState) : AState :=
  match BnB.pq_pop aKey s.pq with
  | none => s
  | some (current, rest) =>
    let s := { s with pq := rest, nodes_explored := s.nodes_explored + 1 }
    if s.min_cost ≤ current.bound then { s with nodes_pruned := s.nodes_pruned + 1 }
    else if current.level = n then
      if current.cost < s.min_cost then
        { s with min_cost := current.cost, best_assignment := current.assignment }
      else s
    else
      (List.range n).foldl
        (fun s1 job =>
          if ¬ current.worker_used.getD job false then
            let child := aChild cost_matrix n current job
            if child.bound < s1.min_cost then { s1 with pq := BnB.pq_push aKey s1.pq child }
            else { s1 with nodes_pruned := s1.nodes_pruned + 1 }
          else s1)
        s

/-- The setup part of `solve_assignment` (lines 169-194): the incumbent is
reset to the `INF` sentinel (not to any heuristic value), the best
assignment to all `-1`, the counters to zero, and the queue is seeded with
the root node. -/
def aInitState (cost_matrix : Nat → Nat → Int) (n : Nat) : AState :=
  let root0 : AssignmentNode :=
    { level := 0, cost := 0, bound := 0
      assignment := List.replicate n (-1)
      worker_used := List.replicate n false }
  let root := { root0 with bound := calculate_bound cost_matrix n root0 }
  { pq := [root]
    min_cost := INF
    best_assignment := List.replicate n (-1)
    nodes_explored := 0
    nodes_pruned := 0 }

/-- The `while` loop of `solve_assignment`, with explicit fuel. -/
def aRun (cost_matrix : Nat → Nat → Int) (n : Nat) : Nat → AState → AState
  | 0, s => s
  | fuel + 1, s => if s.pq.isEmpty then s else aRun cost_matrix n fuel (aStep cost_matrix n s)

/-- Embedding of `solve_assignment` (lines 159-275). -/
def solve_assignment (cost_matrix : Nat → Nat → Int) (n : Nat) (fuel : Nat) : AState :=
  aRun cost_matrix n fuel (aInitState cost_matrix n)

end Assign

namespace BnB

/-! Correctness of the binary heap: the sift loops permute the array, and
they restore the heap shape, so `pq_pop` returns an extremal-key element.
These lemmas serve both the priority-queue claim and the queue-growth
analysis of the TSP driver. -/

variable {α : Type} {β : Type} [LinearOrder β]

theorem cons_set_perm (a : α) :
    ∀ (t : List α) (k : Nat) (hk : k < t.length), (t.get ⟨k, hk⟩ :: t.set k a).Perm (a :: t)
  | b :: t, 0, _ => by simpa using List.Perm.swap a b t
  | b :: t, k + 1, hk => by
    have ih := cons_set_perm a t k (by simpa using hk)
    have h1 : ((b :: t).get ⟨k + 1, hk⟩ :: b :: t.set k a).Perm
        (b :: (b :: t).get ⟨k + 1, hk⟩ :: t.set k a) := List.Perm.swap _ _ _
    have h2 : (b :: t).get ⟨k + 1, hk⟩ :: t.set k a = t.get ⟨k, by simpa using hk⟩ :: t.set k a :=
      rfl
    have h3 : (b :: (t.get ⟨k, by simpa using hk⟩ :: t.set k a)).Perm (b :: a :: t) := ih.cons b
    have h4 : (b :: a :: t).Perm (a :: b :: t) := List.Perm.swap _ _ _
    simp only [List.set]
    exact ((h1.trans (by rw [h2])).trans h3).trans h4

theorem set_set_perm :
    ∀ (l : List α) (i j : Nat) (hi : i < l.length) (hj : j < l.length),
      ((l.set i (l.get ⟨j, hj⟩)).set j (l.get ⟨i, hi⟩)).Perm l
  | a :: t, 0, 0, _, _ => by simp
  | a :: t, 0, j + 1, hi, hj => by
    simpa using cons_set_perm a t j (by simpa using hj)
  | a :: t, i + 1, 0, hi, hj => by
    have h := cons_set_perm a t i (by simpa using hi)
    simpa using h
  | a :: t, i + 1, j + 1, hi, hj => by
    have ih := set_set_perm t i j (by simpa using hi) (by simpa using hj)
    simpa using ih.cons a

theorem swap_perm (l : List α) (i j : Nat) : (swap l i j).Perm l := by
  unfold swap
  cases hi : l[i]? with
  | none => exact List.Perm.refl l
  | some a =>
    cases hj : l[j]? with
    | none => exact List.Perm.refl l
    | some b =>
      rw [List.getElem?_eq_some_iff] at hi hj
      obtain ⟨hi', ha⟩ := hi
      obtain ⟨hj', hb⟩ := hj
      subst ha hb
      exact set_set_perm l i j hi' hj'

theorem get_swap (l : List α) (i j k : Nat) (hi : i < l.length) (hj : j < l.length)
    (hk : k < l.length) :
    (swap l i j).get ⟨k, by simpa using hk⟩ =
      if k = i then l.get ⟨j, hj⟩ else if k = j then l.get ⟨i, hi⟩ else l.get ⟨k, hk⟩ := by
  have e1 : l[i]? = some (l.get ⟨i, hi⟩) := List.getElem?_eq_getElem hi
  have e2 : l[j]? = some (l.get ⟨j, hj⟩) := List.getElem?_eq_getElem hj
  simp only [swap, e1, e2, List.get_eq_getElem]
  by_cases hkj : k = j
  · subst hkj
    simp only [List.getElem_set_self, if_pos rfl]
    by_cases hki : k = i
    · subst hki
      simp
    · simp [hki]
  · rw [List.getElem_set_of_ne (fun h => hkj h.symm)]
    by_cases hki : k = i
    · subst hki
      simp [List.getElem_set_self, hkj]
    · rw [List.getElem_set_of_ne (fun h => hki h.symm)]
      simp [hki, hkj]

end BnB

namespace BnB

variable {α : Type} {β : Type} [LinearOrder β]

/-! Correctness of the binary heap.  `keyAt` reads the key at an index,
returning `⊤` out of range, which keeps every heap-shape statement free of
bound side conditions.  These lemmas serve both the priority-queue claim
and the queue-growth analysis of the TSP driver. -/

/-- Key of the entry at index `j`, or `⊤` past the end. -/
def keyAt (key : α → β) (l : List α) (j : Nat) : WithTop β :=
  match l[j]? with
  | some a => (key a : WithTop β)
  | none => ⊤

theorem keyAt_of_lt (key : α → β) (l : List α) (j : Nat) (hj : j < l.length) :
    keyAt key l j = (key (l.get ⟨j, hj⟩) : WithTop β) := by
  simp [keyAt, List.getElem?_eq_getElem hj]

theorem keyAt_of_le (key : α → β) (l : List α) (j : Nat) (hj : l.length ≤ j) :
    keyAt key l j = ⊤ := by
  simp [keyAt, List.getElem?_eq_none hj]

theorem keyAt_swap (key : α → β) (l : List α) (i j k : Nat) (hi : i < l.length)
    (hj : j < l.length) :
    keyAt key (swap l i j) k =
      if k = i then keyAt key l j else if k = j then keyAt key l i else keyAt key l k := by
  by_cases hk : k < l.length
  · rw [keyAt_of_lt key _ k (by simpa using hk), get_swap l i j k hi hj hk,
        keyAt_of_lt key l i hi, keyAt_of_lt key l j hj, keyAt_of_lt key l k hk]
    split_ifs <;> rfl
  · have hki : k ≠ i := by omega
    have hkj : k ≠ j := by omega
    rw [if_neg hki, if_neg hkj, keyAt_of_le key _ k (by simpa using not_lt.mp hk),
        keyAt_of_le key l k (not_lt.mp hk)]

/-- The min-heap shape (max-heap under the dual order): the key at every
index is at least the key at its parent index. -/
def IsHeap (key : α → β) (l : List α) : Prop :=
  ∀ j : Nat, 0 < j → keyAt key l ((j - 1) / 2) ≤ keyAt key l j

/-- Invariant of the bubble-up loop: the heap shape at every edge not
pointing into `i`, and the grandparent of `i` dominating the children of
`i`. -/
def UpExcept (key : α → β) (l : List α) (i : Nat) : Prop :=
  (∀ j : Nat, 0 < j → j ≠ i → keyAt key l ((j - 1) / 2) ≤ keyAt key l j) ∧
  (∀ j : Nat, 0 < i → (j - 1) / 2 = i → keyAt key l ((i - 1) / 2) ≤ keyAt key l j)

/-- Invariant of the bubble-down loop: the heap shape at every edge not
pointing out of `i`, and the parent of `i` dominating the children of
`i`. -/
def DownExcept (key : α → β) (l : List α) (i : Nat) : Prop :=
  (∀ j : Nat, 0 < j → (j - 1) / 2 ≠ i → keyAt key l ((j - 1) / 2) ≤ keyAt key l j) ∧
  (∀ j : Nat, 0 < i → (j - 1) / 2 = i → keyAt key l ((i - 1) / 2) ≤ keyAt key l j)

theorem upExcept_swap (key : α → β) (l : List α) (i : Nat)
    (hpos : 0 < i) (hlen : i < l.length) (hup : UpExcept key l i)
    (hlt : keyAt key l i < keyAt key l ((i - 1) / 2)) :
    UpExcept key (swap l ((i - 1) / 2) i) ((i - 1) / 2) := by
  obtain ⟨h1, h2⟩ := hup
  have hplen : (i - 1) / 2 < l.length := by omega
  have hpi : (i - 1) / 2 < i := by omega
  have hrw : ∀ k : Nat, keyAt key (swap l ((i - 1) / 2) i) k =
      if k = (i - 1) / 2 then keyAt key l i
      else if k = i then keyAt key l ((i - 1) / 2) else keyAt key l k :=
    fun k => keyAt_swap key l ((i - 1) / 2) i k hplen hlen
  have e_p : keyAt key (swap l ((i - 1) / 2) i) ((i - 1) / 2) = keyAt key l i := by
    rw [hrw, if_pos rfl]
  have e_i : keyAt key (swap l ((i - 1) / 2) i) i = keyAt key l ((i - 1) / 2) := by
    rw [hrw, if_neg (by omega : i ≠ (i - 1) / 2), if_pos rfl]
  have e_other : ∀ k : Nat, k ≠ (i - 1) / 2 → k ≠ i →
      keyAt key (swap l ((i - 1) / 2) i) k = keyAt key l k := by
    intro k hk1 hk2
    rw [hrw, if_neg hk1, if_neg hk2]
  constructor
  · intro j hjpos hjne
    by_cases hji : j = i
    · rw [hji, e_i, e_p]
      exact le_of_lt hlt
    · rw [e_other j hjne hji]
      by_cases hpp : (j - 1) / 2 = (i - 1) / 2
      · rw [hpp, e_p]
        refine le_trans (le_of_lt hlt) ?_
        have h := h1 j hjpos hji
        rw [hpp] at h
        exact h
      · by_cases hpi2 : (j - 1) / 2 = i
        · rw [hpi2, e_i]
          exact h2 j hpos hpi2
        · rw [e_other ((j - 1) / 2) hpp hpi2]
          exact h1 j hjpos hji
  · intro j hppos hjpar
    have hjgt : (i - 1) / 2 < j := by omega
    have hgp1 : ((i - 1) / 2 - 1) / 2 ≠ (i - 1) / 2 := by omega
    have hgp2 : ((i - 1) / 2 - 1) / 2 ≠ i := by omega
    rw [e_other (((i - 1) / 2 - 1) / 2) hgp1 hgp2]
    have hbase := h1 ((i - 1) / 2) hppos (by omega)
    by_cases hji : j = i
    · rw [hji, e_i]
      exact hbase
    · rw [e_other j (by omega) hji]
      refine le_trans hbase ?_
      have h := h1 j (by omega) hji
      rw [hjpar] at h
      exact h

theorem downExcept_swap (key : α → β) (l : List α) (i c : Nat)
    (hc : c = 2 * i + 1 ∨ c = 2 * i + 2) (hclen : c < l.length)
    (hdown : DownExcept key l i)
    (hmin : ∀ j : Nat, j = 2 * i + 1 ∨ j = 2 * i + 2 → keyAt key l c ≤ keyAt key l j)
    (hlt : keyAt key l c < keyAt key l i) :
    DownExcept key (swap l i c) c := by
  obtain ⟨h1, h2⟩ := hdown
  have hic : i < c := by omega
  have hilen : i < l.length := by omega
  have hrw : ∀ k : Nat, keyAt key (swap l i c) k =
      if k = i then keyAt key l c else if k = c then keyAt key l i else keyAt key l k :=
    fun k => keyAt_swap key l i c k hilen hclen
  have e_i : keyAt key (swap l i c) i = keyAt key l c := by rw [hrw, if_pos rfl]
  have e_c : keyAt key (swap l i c) c = keyAt key l i := by
    rw [hrw, if_neg (by omega : c ≠ i), if_pos rfl]
  have e_other : ∀ k : Nat, k ≠ i → k ≠ c → keyAt key (swap l i c) k = keyAt key l k := by
    intro k hk1 hk2
    rw [hrw, if_neg hk1, if_neg hk2]
  constructor
  · intro j hjpos hjne
    by_cases hjc : j = c
    · rw [hjc, e_c, show ((c - 1) / 2 : Nat) = i by omega, e_i]
      exact le_of_lt hlt
    · by_cases hji : j = i
      · rw [hji, e_i, e_other ((i - 1) / 2) (by omega) (by omega)]
        exact h2 c (by omega) (by omega)
      · rw [e_other j hji hjc]
        by_cases hpar : (j - 1) / 2 = i
        · rw [hpar, e_i]
          exact hmin j (by omega)
        · rw [e_other ((j - 1) / 2) hpar hjne]
          exact h1 j hjpos hpar
  · intro j hcpos hjpar
    have hji : j ≠ i := by omega
    have hjc : j ≠ c := by omega
    rw [show ((c - 1) / 2 : Nat) = i by omega, e_i, e_other j hji hjc]
    have h := h1 j (by omega) (by omega)
    rw [hjpar] at h
    exact h

theorem pickChild_or (key : α → β) (l : List α) (i : Nat) :
    pickChild key l i = 2 * i + 1 ∨ pickChild key l i = 2 * i + 2 := by
  unfold pickChild
  repeat' split
  all_goals omega

theorem pickChild_min (key : α → β) (l : List α) (i : Nat) (hl : 2 * i + 1 < l.length) :
    ∀ j : Nat, j = 2 * i + 1 ∨ j = 2 * i + 2 →
      keyAt key l (pickChild key l i) ≤ keyAt key l j := by
  intro j hj
  unfold pickChild
  split
  case isTrue h2 =>
    split
    case isTrue hcmp =>
      rcases hj with h | h <;> subst h
      · rw [keyAt_of_lt key l (2 * i + 2) h2, keyAt_of_lt key l (2 * i + 1) hl]
        exact_mod_cast le_of_lt hcmp
      · exact le_refl _
    case isFalse hcmp =>
      rcases hj with h | h <;> subst h
      · exact le_refl _
      · rw [keyAt_of_lt key l (2 * i + 2) h2, keyAt_of_lt key l (2 * i + 1) hl]
        exact_mod_cast not_lt.mp hcmp
  case isFalse h2 =>
    rcases hj with h | h <;> subst h
    · exact le_refl _
    · rw [keyAt_of_le key l (2 * i + 2) (by omega)]
      exact le_top

theorem upExcept_zero_isHeap (key : α → β) (l : List α) (h : UpExcept key l 0) :
    IsHeap key l := by
  intro j hjpos
  exact h.1 j hjpos (by omega)

theorem isHeap_of_no_children (key : α → β) (l : List α) (i : Nat)
    (h : DownExcept key l i) (hlen : l.length ≤ 2 * i + 1) : IsHeap key l := by
  intro j hjpos
  by_cases hj : j < l.length
  · exact h.1 j hjpos (by omega)
  · rw [keyAt_of_le key l j (by omega)]
    exact le_top

theorem siftUpAux_isHeap (key : α → β) :
    ∀ (fuel : Nat) (l : List α) (i : Nat), i ≤ fuel → i < l.length → UpExcept key l i →
      IsHeap key (siftUpAux key fuel l i)
  | 0, l, i, hfuel, hlen, hup => by
    have hi0 : i = 0 := by omega
    subst hi0
    exact upExcept_zero_isHeap key l hup
  | fuel + 1, l, i, hfuel, hlen, hup => by
    simp only [siftUpAux]
    split
    case isFalse h =>
      have hi0 : i = 0 := by omega
      subst hi0
      exact upExcept_zero_isHeap key l hup
    case isTrue h =>
      split
      case isTrue hbr =>
        intro j hjpos
        by_cases hji : j = i
        · subst hji
          rw [keyAt_of_lt key l ((j - 1) / 2) (by omega), keyAt_of_lt key l j h.2]
          exact_mod_cast hbr
        · exact hup.1 j hjpos hji
      case isFalse hbr =>
        refine siftUpAux_isHeap key fuel _ _ (by omega) (by simpa using (by omega : (i - 1) / 2 < l.length)) ?_
        refine upExcept_swap key l i h.1 h.2 hup ?_
        rw [keyAt_of_lt key l i h.2, keyAt_of_lt key l ((i - 1) / 2) (by omega)]
        exact_mod_cast not_le.mp hbr

theorem siftDownAux_isHeap (key : α → β) :
    ∀ (fuel : Nat) (l : List α) (i : Nat), l.length - i ≤ fuel → DownExcept key l i →
      IsHeap key (siftDownAux key fuel l i)
  | 0, l, i, hfuel, hdown =>
    isHeap_of_no_children key l i hdown (by omega)
  | fuel + 1, l, i, hfuel, hdown => by
    simp only [siftDownAux]
    split
    case isFalse hl => exact isHeap_of_no_children key l i hdown (by omega)
    case isTrue hl =>
      split
      case isTrue hbr =>
        intro j hjpos
        by_cases hpar : (j - 1) / 2 = i
        · rw [hpar]
          by_cases hj : j < l.length
          · refine le_trans ?_ (pickChild_min key l i hl j (by omega))
            rw [keyAt_of_lt key l i (by omega),
                keyAt_of_lt key l (pickChild key l i) (pickChild_lt_length key l i hl)]
            exact_mod_cast hbr
          · rw [keyAt_of_le key l j (by omega)]
            exact le_top
        · exact hdown.1 j hjpos hpar
      case isFalse hbr =>
        have hcl := pickChild_lt_length key l i hl
        have hco := pickChild_or key l i
        refine siftDownAux_isHeap key fuel _ _ (by simpa using (by omega : l.length - pickChild key l i ≤ fuel)) ?_
        refine downExcept_swap key l i (pickChild key l i) hco hcl hdown (pickChild_min key l i hl) ?_
        rw [keyAt_of_lt key l i (by omega), keyAt_of_lt key l (pickChild key l i) hcl]
        exact_mod_cast not_le.mp hbr

theorem siftUpAux_perm (key : α → β) :
    ∀ (fuel : Nat) (l : List α) (i : Nat), (siftUpAux key fuel l i).Perm l
  | 0, l, i => List.Perm.refl l
  | fuel + 1, l, i => by
    simp only [siftUpAux]
    split
    case isFalse h => exact List.Perm.refl l
    case isTrue h =>
      split
      case isTrue hbr => exact List.Perm.refl l
      case isFalse hbr =>
        exact (siftUpAux_perm key fuel _ _).trans (swap_perm l ((i - 1) / 2) i)

theorem siftDownAux_perm (key : α → β) :
    ∀ (fuel : Nat) (l : List α) (i : Nat), (siftDownAux key fuel l i).Perm l
  | 0, l, i => List.Perm.refl l
  | fuel + 1, l, i => by
    simp only [siftDownAux]
    split
    case isFalse h => exact List.Perm.refl l
    case isTrue h =>
      split
      case isTrue hbr => exact List.Perm.refl l
      case isFalse hbr =>
        exact (siftDownAux_perm key fuel _ _).trans (swap_perm l i (pickChild key l i))

theorem pq_push_perm (key : α → β) (l : List α) (x : α) :
    (pq_push key l x).Perm (x :: l) :=
  (siftUpAux_perm key l.length (l ++ [x]) l.length).trans (List.perm_append_singleton x l)

theorem keyAt_append_left (key : α → β) (l l2 : List α) (j : Nat) (hj : j < l.length) :
    keyAt key (l ++ l2) j = keyAt key l j := by
  unfold keyAt
  rw [List.getElem?_append_left hj]

theorem pq_push_isHeap (key : α → β) (l : List α) (x : α) (h : IsHeap key l) :
    IsHeap key (pq_push key l x) := by
  unfold pq_push siftUp
  refine siftUpAux_isHeap key l.length (l ++ [x]) l.length (le_refl _) (by simp) ?_
  constructor
  · intro j hjpos hjne
    by_cases hj : j < l.length
    · rw [keyAt_append_left key l [x] j hj, keyAt_append_left key l [x] ((j - 1) / 2) (by omega)]
      exact h j hjpos
    · rw [keyAt_of_le key (l ++ [x]) j (by simp; omega)]
      exact le_top
  · intro j hpos hjpar
    rw [keyAt_of_le key (l ++ [x]) j (by simp; omega)]
    exact le_top

theorem isHeap_nil (key : α → β) : IsHeap key ([] : List α) := by
  intro j hjpos
  rw [keyAt_of_le key [] j (by simp)]
  exact le_top

theorem isHeap_root_min (key : α → β) (l : List α) (hh : IsHeap key l) :
    ∀ j : Nat, keyAt key l 0 ≤ keyAt key l j := by
  intro j
  induction j using Nat.strong_induction_on with
  | _ j ih =>
    rcases Nat.eq_zero_or_pos j with h0 | hpos
    · subst h0
      exact le_refl _
    · exact le_trans (ih ((j - 1) / 2) (by omega)) (hh j hpos)

theorem keyAt_eq_of_getElem? (key : α → β) (l l2 : List α) (j k : Nat)
    (h : l[j]? = l2[k]?) : keyAt key l j = keyAt key l2 k := by
  unfold keyAt
  rw [h]

theorem keyAt_shift (key : α → β) (a x : α) (m : List α) (j : Nat) (hj1 : 1 ≤ j)
    (hj2 : j < m.length) : keyAt key (x :: m.dropLast) j = keyAt key (a :: m) j := by
  obtain ⟨k, rfl⟩ : ∃ k, j = k + 1 := ⟨j - 1, by omega⟩
  refine keyAt_eq_of_getElem? key _ _ _ _ ?_
  rw [List.getElem?_cons_succ, List.getElem?_cons_succ,
      List.getElem?_eq_getElem (l := m.dropLast) (by simp; omega),
      List.getElem?_eq_getElem (l := m) (by omega)]
  congr 1
  exact List.getElem_dropLast m k (by simp; omega)

/-- Full functional specification of `pq_pop` on a nonempty heap: it
returns the root (an element whose key is minimal over the whole queue)
together with the remaining entries, a permutation of the rest, and the
heap shape is restored. -/
theorem pq_pop_spec (key : α → β) (l : List α) (hne : l ≠ []) (hh : IsHeap key l) :
    ∃ m rest, pq_pop key l = some (m, rest) ∧ (m :: rest).Perm l ∧ IsHeap key rest ∧
      ∀ y ∈ l, key m ≤ key y := by
  have hmem : ∀ y ∈ l, key (l.get ⟨0, by cases l with | nil => simp at hne | cons a t => simp⟩) ≤ key y := by
    intro y hy
    obtain ⟨⟨j, hj⟩, rfl⟩ := List.mem_iff_get.mp hy
    have h0 := isHeap_root_min key l hh j
    rw [keyAt_of_lt key l 0 (by omega), keyAt_of_lt key l j hj] at h0
    exact_mod_cast h0
  cases l with
  | nil => simp at hne
  | cons a t =>
    cases t with
    | nil =>
      refine ⟨a, [], rfl, List.Perm.refl _, isHeap_nil key, ?_⟩
      simpa using hmem
    | cons b t =>
      refine ⟨a, _, rfl, ?_, ?_, by simpa using hmem⟩
      · refine List.Perm.cons a ?_
        refine (siftDownAux_perm key _ _ 0).trans ?_
        have hbt : (b :: t) ≠ [] := by simp
        have hp1 : ((b :: t).getLast hbt :: (b :: t).dropLast).Perm
            ((b :: t).dropLast ++ [(b :: t).getLast hbt]) :=
          (List.perm_append_singleton _ _).symm
        rw [List.dropLast_append_getLast hbt] at hp1
        exact hp1
      · refine siftDownAux_isHeap key _ _ 0 (le_refl _) ?_
        constructor
        · intro j hjpos hjpar
          by_cases hj : j < ((b :: t).getLast (by simp) :: (b :: t).dropLast).length
          · have hjlen : j < (b :: t).length := by
              simpa using hj
            rw [keyAt_shift key a _ (b :: t) j (by omega) hjlen,
                keyAt_shift key a _ (b :: t) ((j - 1) / 2) (by omega) (by omega)]
            exact hh j hjpos
          · rw [keyAt_of_le key _ j (by omega)]
            exact le_top
        · intro j hpos hjpar
          exact absurd hpos (by omega)

/-- An operation on the priority queue. -/
inductive HeapOp (α : Type) where
  | push (a : α)
  | pop
deriving DecidableEq

/-- State of the queue after a sequence of operations.  A pop on an empty
queue (undefined behaviour in C, excluded by `opsValid`) leaves the model
state unchanged. -/
def opsRun (key : α → β) : List (HeapOp α) → List α → List α
  | [], l => l
  | HeapOp.push a :: ops, l => opsRun key ops (pq_push key l a)
  | HeapOp.pop :: ops, l =>
    opsRun key ops (match pq_pop key l with | none => l | some p => p.2)

/-- A sequence is valid from a state when every pop happens on a nonempty
queue and every push happens with fewer than 10000 stored nodes (the C
array capacity `nodes[10000]`), so the C code reads and writes in
bounds. -/
def opsValid (key : α → β) : List (HeapOp α) → List α → Bool
  | [], _ => true
  | HeapOp.push a :: ops, l =>
    decide (l.length < 10000) && opsValid key ops (pq_push key l a)
  | HeapOp.pop :: ops, l =>
    !l.isEmpty && opsValid key ops (match pq_pop key l with | none => l | some p => p.2)

theorem opsRun_append (key : α → β) (ops1 ops2 : List (HeapOp α)) :
    ∀ l : List α, opsRun key (ops1 ++ ops2) l = opsRun key ops2 (opsRun key ops1 l) := by
  induction ops1 with
  | nil => intro l; rfl
  | cons op ops ih =>
    intro l
    cases op with
    | push a => exact ih (pq_push key l a)
    | pop => exact ih _

theorem opsValid_append (key : α → β) (ops1 ops2 : List (HeapOp α)) :
    ∀ l : List α, opsValid key (ops1 ++ ops2) l = true →
      opsValid key ops2 (opsRun key ops1 l) = true := by
  induction ops1 with
  | nil => intro l h; exact h
  | cons op ops ih =>
    intro l h
    cases op with
    | push a =>
      simp only [List.cons_append, opsValid, Bool.and_eq_true] at h
      exact ih _ h.2
    | pop =>
      simp only [List.cons_append, opsValid, Bool.and_eq_true] at h
      exact ih _ h.2

theorem opsRun_isHeap (key : α → β) :
    ∀ (ops : List (HeapOp α)) (l : List α), IsHeap key l → IsHeap key (opsRun key ops l) := by
  intro ops
  induction ops with
  | nil => intro l h; exact h
  | cons op ops ih =>
    intro l h
    cases op with
    | push a => exact ih _ (pq_push_isHeap key l a h)
    | pop =>
      refine ih _ ?_
      cases hl : pq_pop key l with
      | none => exact h
      | some p =>
        have hne : l ≠ [] := by
          intro h0
          subst h0
          simp [pq_pop] at hl
        obtain ⟨m, rest, he, _, hrh, _⟩ := pq_pop_spec key l hne h
        rw [hl] at he
        obtain ⟨rfl, rfl⟩ : m = p.1 ∧ rest = p.2 := by
          cases p
          simpa using he.symm
        exact hrh

/-- After any valid operation sequence ending just before a pop, that pop
returns an element whose key is minimal over the whole stored queue, and
the remaining queue is a permutation of the rest. -/
theorem pop_after_valid_prefix (key : α → β) (ops1 ops2 : List (HeapOp α))
    (h : opsValid key (ops1 ++ HeapOp.pop :: ops2) [] = true) :
    ∃ m rest, pq_pop key (opsRun key ops1 []) = some (m, rest) ∧
      (m :: rest).Perm (opsRun key ops1 []) ∧ ∀ y ∈ opsRun key ops1 [], key m ≤ key y := by
  have hv := opsValid_append key ops1 (HeapOp.pop :: ops2) [] h
  have hne : opsRun key ops1 [] ≠ [] := by
    simp only [opsValid, Bool.and_eq_true] at hv
    intro h0
    rw [h0] at hv
    simp at hv
  have hh := opsRun_isHeap key ops1 [] (isHeap_nil key)
  obtain ⟨m, rest, he, hperm, _, hmin⟩ := pq_pop_spec key _ hne hh
  exact ⟨m, rest, he, hperm, hmin⟩

end BnB

namespace Claims

/-! Concrete instances from the repository and the claims, and the claim
theorems themselves. -/

/-- Items of test case 1 of `KnapsackBranchBound.c` `main` (lines
481-486): weights 10, 20, 30, values 60, 100, 120, capacity 50. -/
def testCase1Items : List Knapsack.Item :=
  [⟨10, 60, 0, 6⟩, ⟨20, 100, 1, 5⟩, ⟨30, 120, 2, 4⟩]

/-- Items of concrete scenario A of the specification: A(1,15), B(3,20),
C(4,30), D(5,40), capacity 7, with the `ratio` fields `value / weight` as
every caller sets them. -/
def scenarioAItems : List Knapsack.Item :=
  [⟨1, 15, 0, 15⟩, ⟨3, 20, 1, 20 / 3⟩, ⟨4, 30, 2, 30 / 4⟩, ⟨5, 40, 3, 8⟩]

/-- The run of `solve_knapsack` on scenario A (31 nodes exist in the whole
search tree, so 1000 fuel steps more than exhaust the queue, as the
`pq = []` conjunct of the scenario theorem checks). -/
def scenarioARun : Knapsack.KState := Knapsack.solve_knapsack scenarioAItems 7 1000

/-- Original indices of the items selected by the returned flags, as the
result printing loop of `solve_knapsack` (lines 289-297) reads them:
position `i` of `best_solution` refers to position `i` of the sorted
`items` array, whose `index` field is the original position. -/
def selectedIndices (s : Knapsack.KState) : List Nat :=
  (List.range s.n).filterMap
    (fun i => if s.best_solution.getD i false then
        some ((s.items.getD i Knapsack.dfltItem).index)
      else none)

/-- Total weight of the items selected by the returned flags, as the same
printing loop accumulates it. -/
def selectedWeight (s : Knapsack.KState) : Nat :=
  ((List.range s.n).map
    (fun i => if s.best_solution.getD i false then
        (s.items.getD i Knapsack.dfltItem).weight
      else 0)).sum

/-- Claim C8: on scenario A the branch-and-bound solver terminates (the
queue is empty at the end of the run) with maximum profit 55, achieved by
selecting exactly the items with original indices 0 and 3 (A and D), of
total weight 6. -/
theorem scenarioA_solved_optimally :
    scenarioARun.max_profit = 55 ∧ scenarioARun.pq = [] ∧
      selectedIndices scenarioARun = [0, 3] ∧ selectedWeight scenarioARun = 6 := by
  with_unfolding_all decide

/-- Claim C1 (the code bug): on the program's own first test case the
branch-and-bound solver returns 180 after exhausting its queue, while
exhaustive enumeration over the same (sorted) items returns 220: the
optimum (items 2 and 3, weight exactly 50) fills the capacity exactly, and
`calculate_bound` returns 0 for any node whose weight equals the capacity,
so both drivers prune every such node before its profit is recorded. -/
theorem knapsack_misses_full_capacity_optimum :
    (Knapsack.solve_knapsack testCase1Items 50 1000).max_profit = 180 ∧
      (Knapsack.solve_knapsack testCase1Items 50 1000).pq = [] ∧
      Knapsack.brute_force_knapsack
        ((Knapsack.solve_knapsack testCase1Items 50 1000).items) 50 = 220 := by
  with_unfolding_all decide

/-- Claim C4: after any valid sequence of queue operations (every pop on a
nonempty queue, every push under the 10000-node capacity), the next pop
removes and returns an element whose bound is best among all stored
elements: minimal for the min-heap of `TravelingSalesman.c`, maximal for
the max-heap of `KnapsackBranchBound.c`; the remaining queue holds exactly
the other elements. -/
theorem pq_pop_returns_extremal_bound :
    (∀ ops1 ops2 : List (BnB.HeapOp TSP.TSPNode),
      BnB.opsValid TSP.tKey (ops1 ++ BnB.HeapOp.pop :: ops2) [] = true →
      ∃ m rest, BnB.pq_pop TSP.tKey (BnB.opsRun TSP.tKey ops1 []) = some (m, rest) ∧
        (m :: rest).Perm (BnB.opsRun TSP.tKey ops1 []) ∧
        ∀ y ∈ BnB.opsRun TSP.tKey ops1 [], m.bound ≤ y.bound) ∧
    (∀ ops1 ops2 : List (BnB.HeapOp Knapsack.KnapsackNode),
      BnB.opsValid Knapsack.kKey (ops1 ++ BnB.HeapOp.pop :: ops2) [] = true →
      ∃ m rest, BnB.pq_pop Knapsack.kKey (BnB.opsRun Knapsack.kKey ops1 []) = some (m, rest) ∧
        (m :: rest).Perm (BnB.opsRun Knapsack.kKey ops1 []) ∧
        ∀ y ∈ BnB.opsRun Knapsack.kKey ops1 [], y.bound ≤ m.bound) := by
  constructor
  · intro ops1 ops2 h
    obtain ⟨m, rest, he, hperm, hmin⟩ := BnB.pop_after_valid_prefix TSP.tKey ops1 ops2 h
    exact ⟨m, rest, he, hperm, fun y hy => hmin y hy⟩
  · intro ops1 ops2 h
    obtain ⟨m, rest, he, hperm, hmin⟩ := BnB.pop_after_valid_prefix Knapsack.kKey ops1 ops2 h
    exact ⟨m, rest, he, hperm, fun y hy => hmin y hy⟩

/-- Two concrete TSP nodes used to exercise the queue claims. -/
def tNodeA : TSP.TSPNode := ⟨[0], [true], 0, 7, 1⟩

/-- A second concrete TSP node, with a smaller bound than `tNodeA`. -/
def tNodeB : TSP.TSPNode := ⟨[0, 1], [true, true], 3, 4, 2⟩

/-- A concrete knapsack node. -/
def kNodeA : Knapsack.KnapsackNode := ⟨0, 0, 0, 10, [false]⟩

/-- A second concrete knapsack node, with a larger bound than `kNodeA`. -/
def kNodeB : Knapsack.KnapsackNode := ⟨1, 2, 1, 12, [true]⟩

/-- Witness for claim C4: a concrete push-push-pop trace on each queue,
with the validity hypothesis discharged by computation. -/
theorem pq_pop_returns_extremal_bound_witness :
    (∃ m rest,
      BnB.pq_pop TSP.tKey
          (BnB.opsRun TSP.tKey [BnB.HeapOp.push tNodeA, BnB.HeapOp.push tNodeB] []) =
        some (m, rest) ∧
      (m :: rest).Perm
        (BnB.opsRun TSP.tKey [BnB.HeapOp.push tNodeA, BnB.HeapOp.push tNodeB] []) ∧
      ∀ y ∈ BnB.opsRun TSP.tKey [BnB.HeapOp.push tNodeA, BnB.HeapOp.push tNodeB] [],
        m.bound ≤ y.bound) ∧
    (∃ m rest,
      BnB.pq_pop Knapsack.kKey
          (BnB.opsRun Knapsack.kKey [BnB.HeapOp.push kNodeA, BnB.HeapOp.push kNodeB] []) =
        some (m, rest) ∧
      (m :: rest).Perm
        (BnB.opsRun Knapsack.kKey [BnB.HeapOp.push kNodeA, BnB.HeapOp.push kNodeB] []) ∧
      ∀ y ∈ BnB.opsRun Knapsack.kKey [BnB.HeapOp.push kNodeA, BnB.HeapOp.push kNodeB] [],
        y.bound ≤ m.bound) :=
  ⟨pq_pop_returns_extremal_bound.1 [BnB.HeapOp.push tNodeA, BnB.HeapOp.push tNodeB] []
      (by with_unfolding_all decide),
    pq_pop_returns_extremal_bound.2 [BnB.HeapOp.push kNodeA, BnB.HeapOp.push kNodeB] []
      (by with_unfolding_all decide)⟩

end Claims

/-- A step-indexed fold keeps any property each step keeps. -/
theorem foldl_invariant {σ ι : Type} (f : σ → ι → σ) (P : σ → Prop)
    (hstep : ∀ s a, P s → P (f s a)) : ∀ (l : List ι) (s : σ), P s → P (List.foldl f s l) := by
  intro l
  induction l with
  | nil => intro s h; exact h
  | cons a l ih => intro s h; exact ih (f s a) (hstep s a h)

namespace Knapsack

theorem kStep_max_profit_mono (s : KState) : s.max_profit ≤ (kStep s).max_profit := by
  unfold kStep
  cases hp : BnB.pq_pop kKey s.pq with
  | none => exact le_refl _
  | some p =>
    obtain ⟨current, rest⟩ := p
    dsimp only
    split_ifs <;> first | exact le_refl _ | exact le_of_lt (by assumption)

theorem kStep_items_eq (s : KState) : (kStep s).items = s.items := by
  unfold kStep
  cases hp : BnB.pq_pop kKey s.pq with
  | none => rfl
  | some p =>
    obtain ⟨current, rest⟩ := p
    dsimp only
    split_ifs <;> rfl

theorem kRun_max_profit_mono : ∀ (fuel : Nat) (s : KState),
    s.max_profit ≤ (kRun fuel s).max_profit
  | 0, s => le_refl _
  | fuel + 1, s => by
    unfold kRun
    split
    · exact le_refl _
    · exact le_trans (kStep_max_profit_mono s) (kRun_max_profit_mono fuel (kStep s))

theorem kRun_items_eq : ∀ (fuel : Nat) (s : KState), (kRun fuel s).items = s.items
  | 0, s => rfl
  | fuel + 1, s => by
    unfold kRun
    split
    · rfl
    · rw [kRun_items_eq fuel (kStep s), kStep_items_eq s]

end Knapsack

namespace TSP

theorem tStep_best_cost_mono (graph : Nat → Nat → Int) (n : Nat) (s : TState) :
    (tStep graph n s).best_cost ≤ s.best_cost := by
  unfold tStep
  cases hp : BnB.pq_pop tKey s.pq with
  | none => exact le_refl _
  | some p =>
    obtain ⟨current, rest⟩ := p
    dsimp only
    split_ifs with h1 h2 h3
    · exact le_refl _
    · exact le_of_lt h3
    · exact le_refl _
    · refine foldl_invariant _ (fun s1 : TState => s1.best_cost ≤ s.best_cost) ?_ _ _ (le_refl _)
      intro s1 city h
      dsimp only
      split_ifs <;> exact h

theorem tRun_best_cost_mono (graph : Nat → Nat → Int) (n : Nat) :
    ∀ (fuel : Nat) (s : TState), (tRun graph n fuel s).best_cost ≤ s.best_cost
  | 0, s => le_refl _
  | fuel + 1, s => by
    unfold tRun
    split
    · exact le_refl _
    · exact le_trans (tRun_best_cost_mono graph n fuel (tStep graph n s))
        (tStep_best_cost_mono graph n s)

end TSP

namespace Assign

theorem aStep_min_cost_mono (cost_matrix : Nat → Nat → Int) (n : Nat) (s : AState) :
    (aStep cost_matrix n s).min_cost ≤ s.min_cost := by
  unfold aStep
  cases hp : BnB.pq_pop aKey s.pq with
  | none => exact le_refl _
  | some p =>
    obtain ⟨current, rest⟩ := p
    dsimp only
    split_ifs with h1 h2 h3
    · exact le_refl _
    · exact le_of_lt h3
    · exact le_refl _
    · refine foldl_invariant _ (fun s1 : AState => s1.min_cost ≤ s.min_cost) ?_ _ _ (le_refl _)
      intro s1 job h
      dsimp only
      split_ifs <;> exact h

theorem aRun_min_cost_mono (cost_matrix : Nat → Nat → Int) (n : Nat) :
    ∀ (fuel : Nat) (s : AState), (aRun cost_matrix n fuel s).min_cost ≤ s.min_cost
  | 0, s => le_refl _
  | fuel + 1, s => by
    unfold aRun
    split
    · exact le_refl _
    · exact le_trans (aRun_min_cost_mono cost_matrix n fuel (aStep cost_matrix n s))
        (aStep_min_cost_mono cost_matrix n s)

end Assign

namespace Claims

/-- Claim C7: across every run of each solver the incumbent never
regresses: from any loop state, any number of further iterations leaves
the knapsack incumbent `max_profit` no smaller, the TSP incumbent
`best_cost` no larger, and the assignment incumbent `min_cost` no larger.
The incumbents are only replaced at a terminal node whose exact value
strictly improves them, which is what the step lemmas case over. -/
theorem incumbent_monotonicity :
    (∀ (s : Knapsack.KState) (fuel : Nat),
      s.max_profit ≤ (Knapsack.kRun fuel s).max_profit) ∧
    (∀ (graph : Nat → Nat → Int) (n : Nat) (s : TSP.TState) (fuel : Nat),
      (TSP.tRun graph n fuel s).best_cost ≤ s.best_cost) ∧
    (∀ (cost_matrix : Nat → Nat → Int) (n : Nat) (s : Assign.AState) (fuel : Nat),
      (Assign.aRun cost_matrix n fuel s).min_cost ≤ s.min_cost) :=
  ⟨fun s fuel => Knapsack.kRun_max_profit_mono fuel s,
    fun graph n s fuel => TSP.tRun_best_cost_mono graph n fuel s,
    fun cost_matrix n s fuel => Assign.aRun_min_cost_mono cost_matrix n fuel s⟩

end Claims

namespace Knapsack

theorem insertByRatio_perm (a : Item) : ∀ l : List Item, (insertByRatio a l).Perm (a :: l)
  | [] => List.Perm.refl _
  | b :: l => by
    unfold insertByRatio
    split
    · exact List.Perm.refl _
    · exact ((insertByRatio_perm a l).cons b).trans (List.Perm.swap a b l)

theorem sortByRatio_perm : ∀ l : List Item, (sortByRatio l).Perm l
  | [] => List.Perm.refl _
  | a :: l => (insertByRatio_perm a (sortByRatio l)).trans ((sortByRatio_perm l).cons a)

theorem insertByRatio_sorted (a : Item) : ∀ l : List Item,
    l.Pairwise (fun x y => y.ratio ≤ x.ratio) →
    (insertByRatio a l).Pairwise (fun x y => y.ratio ≤ x.ratio)
  | [], _ => by simp [insertByRatio]
  | b :: l, h => by
    unfold insertByRatio
    split
    case isTrue hba =>
      refine List.Pairwise.cons ?_ h
      intro y hy
      rcases List.mem_cons.mp hy with rfl | hy
      · exact hba
      · exact le_trans (List.rel_of_pairwise_cons h hy) hba
    case isFalse hba =>
      refine List.Pairwise.cons ?_ (insertByRatio_sorted a l (List.Pairwise.of_cons h))
      intro y hy
      rcases List.mem_cons.mp ((insertByRatio_perm a l).mem_iff.mp hy) with rfl | hy
      · exact le_of_lt (not_le.mp hba)
      · exact List.rel_of_pairwise_cons h hy

theorem sortByRatio_sorted : ∀ l : List Item,
    (sortByRatio l).Pairwise (fun x y => y.ratio ≤ x.ratio)
  | [] => List.Pairwise.nil
  | a :: l => insertByRatio_sorted a (sortByRatio l) (sortByRatio_sorted l)

theorem insertByRatio_of_le (a : Item) : ∀ l : List Item,
    (∀ y ∈ l, y.ratio ≤ a.ratio) → insertByRatio a l = a :: l
  | [], _ => rfl
  | b :: l, h => by
    unfold insertByRatio
    rw [if_pos (h b (by simp))]

theorem sortByRatio_of_sorted : ∀ l : List Item,
    l.Pairwise (fun x y => y.ratio ≤ x.ratio) → sortByRatio l = l
  | [], _ => rfl
  | a :: l, h => by
    unfold sortByRatio
    rw [sortByRatio_of_sorted l (List.Pairwise.of_cons h),
        insertByRatio_of_le a l (fun y hy => List.rel_of_pairwise_cons h hy)]

theorem sortByRatio_idem (l : List Item) : sortByRatio (sortByRatio l) = sortByRatio l :=
  sortByRatio_of_sorted _ (sortByRatio_sorted l)

theorem solve_knapsack_items_eq (items : List Item) (capacity fuel : Nat) :
    (solve_knapsack items capacity fuel).items = sortByRatio items := by
  unfold solve_knapsack
  rw [kRun_items_eq]
  rfl

end Knapsack

namespace Claims

/-- Claim C10: running `solve_knapsack` leaves the global `items` array
sorted by non-increasing value-to-weight ratio, a permutation of the
supplied items (with the original positions kept in the `index` fields),
and the returned `best_solution` flags refer to this sorted order: on
scenario A the array after the run carries the original indices in the
order 0, 3, 2, 1, and the returned flags are set at the first two sorted
positions (items A and D), not at positions 0 and 3 of supply order. -/
theorem solve_knapsack_permutes_items :
    (∀ (items : List Knapsack.Item) (capacity fuel : Nat),
      (Knapsack.solve_knapsack items capacity fuel).items = Knapsack.sortByRatio items ∧
      ((Knapsack.solve_knapsack items capacity fuel).items).Pairwise
        (fun x y => y.ratio ≤ x.ratio) ∧
      ((Knapsack.solve_knapsack items capacity fuel).items).Perm items) ∧
    (scenarioARun.items.map Knapsack.Item.index = [0, 3, 2, 1] ∧
      scenarioARun.best_solution.take 4 = [true, true, false, false]) := by
  constructor
  · intro items capacity fuel
    refine ⟨Knapsack.solve_knapsack_items_eq items capacity fuel, ?_, ?_⟩
    · rw [Knapsack.solve_knapsack_items_eq items capacity fuel]
      exact Knapsack.sortByRatio_sorted items
    · rw [Knapsack.solve_knapsack_items_eq items capacity fuel]
      exact Knapsack.sortByRatio_perm items
  · constructor
    · with_unfolding_all decide
    · with_unfolding_all decide

end Claims

/-- A fold whose step commutes with a state transformation commutes with
it as a whole. -/
theorem foldl_update_comm {σ ι : Type} (f : σ → ι → σ) (g : σ → σ)
    (h : ∀ s a, f (g s) a = g (f s a)) :
    ∀ (l : List ι) (s : σ), List.foldl f (g s) l = g (List.foldl f s l) := by
  intro l
  induction l with
  | nil => intro s; rfl
  | cons a l ih =>
    intro s
    simp only [List.foldl_cons]
    rw [h s a]
    exact ih (f s a)

namespace TSP

/-- One loop iteration either carries a residual `best_path` through
unchanged (commuting with the overwrite) or ends with states that agree
entirely because the iteration overwrote `best_path` itself. -/
theorem tStep_best_path_residual (graph : Nat → Nat → Int) (n : Nat) (s : TState)
    (bp : List Nat) :
    tStep graph n { s with best_path := bp } = { tStep graph n s with best_path := bp } ∨
    tStep graph n { s with best_path := bp } = tStep graph n s := by
  unfold tStep
  cases hp : BnB.pq_pop tKey s.pq with
  | none => exact Or.inl rfl
  | some p =>
    obtain ⟨current, rest⟩ := p
    dsimp only
    split_ifs with h1 h2 h3
    · exact Or.inl rfl
    · exact Or.inr rfl
    · exact Or.inl rfl
    · refine Or.inl ?_
      exact foldl_update_comm
        (fun s1 city =>
          if city ≠ 0 ∧ ¬ current.visited.getD city false then
            if (tChild graph n current city).bound < s1.best_cost then
              { s1 with pq := BnB.pq_push tKey s1.pq (tChild graph n current city) }
            else { s1 with nodes_pruned := s1.nodes_pruned + 1 }
          else s1)
        (fun u : TState => { u with best_path := bp })
        (by
          intro u a
          dsimp only
          split_ifs <;> rfl) (List.range n)
        { s with pq := rest, nodes_explored := s.nodes_explored + 1
                 popped := s.popped ++ [current] }

/-- Any number of loop iterations either carries the residual through or
forgets it entirely. -/
theorem tRun_best_path_residual (graph : Nat → Nat → Int) (n : Nat) :
    ∀ (fuel : Nat) (s : TState) (bp : List Nat),
      tRun graph n fuel { s with best_path := bp } =
          { tRun graph n fuel s with best_path := bp } ∨
      tRun graph n fuel { s with best_path := bp } = tRun graph n fuel s
  | 0, s, bp => Or.inl rfl
  | fuel + 1, s, bp => by
    unfold tRun
    by_cases he : s.pq.isEmpty
    · rw [if_pos (show ({ s with best_path := bp } : TState).pq.isEmpty from he),
          if_pos he]
      exact Or.inl rfl
    · rw [if_neg (show ¬ ({ s with best_path := bp } : TState).pq.isEmpty from he),
          if_neg he]
      rcases tStep_best_path_residual graph n s bp with h | h
      · rw [h]
        exact tRun_best_path_residual graph n fuel (tStep graph n s) bp
      · rw [h]
        exact Or.inr rfl

end TSP

namespace Claims

/-- Claim C9: repeated runs on the identical instance return identical
results, including the state the first run leaves behind in the global
arrays.  For the knapsack solver the first run permutes the global
`items` array; a second run on that mutated array returns the very same
state (sorting is idempotent and everything else is reset by the setup
code).  For the TSP solver the only global the setup does not reset is
`best_path`; a second run starting from the residual `best_path` of the
first returns the identical state, `best_cost`, path and counters
included. -/
theorem repeated_run_determinism :
    (∀ (items : List Knapsack.Item) (capacity fuel : Nat),
      Knapsack.solve_knapsack ((Knapsack.solve_knapsack items capacity fuel).items)
          capacity fuel =
        Knapsack.solve_knapsack items capacity fuel) ∧
    (∀ (graph : Nat → Nat → Int) (n : Nat) (bp0 : List Nat) (fuel : Nat),
      TSP.solve_tsp graph n (TSP.solve_tsp graph n bp0 fuel).best_path fuel =
        TSP.solve_tsp graph n bp0 fuel) := by
  constructor
  · intro items capacity fuel
    rw [Knapsack.solve_knapsack_items_eq items capacity fuel]
    unfold Knapsack.solve_knapsack
    have hinit : Knapsack.initKState (Knapsack.sortByRatio items) capacity =
        Knapsack.initKState items capacity := by
      unfold Knapsack.initKState
      rw [Knapsack.sortByRatio_idem, (Knapsack.sortByRatio_perm items).length_eq]
    rw [hinit]
  · intro graph n bp0 fuel
    unfold TSP.solve_tsp
    have hinit : TSP.tInit graph n (TSP.tRun graph n fuel (TSP.tInit graph n bp0)).best_path =
        { TSP.tInit graph n bp0 with
          best_path := (TSP.tRun graph n fuel (TSP.tInit graph n bp0)).best_path } := rfl
    rw [hinit]
    rcases TSP.tRun_best_path_residual graph n fuel (TSP.tInit graph n bp0)
        (TSP.tRun graph n fuel (TSP.tInit graph n bp0)).best_path with h | h
    · rw [h]
    · rw [h]

end Claims

namespace Knapsack

/-- Weight of a completion of a node: `sel` selects among the items from
the node's level onward; entries beyond either list select nothing. -/
def completionWeight : List Item → List Bool → Nat
  | it :: items, b :: bs => (if b then it.weight else 0) + completionWeight items bs
  | _, _ => 0

/-- Profit of a completion of a node. -/
def completionValue : List Item → List Bool → Nat
  | it :: items, b :: bs => (if b then it.value else 0) + completionValue items bs
  | _, _ => 0

theorem completionValue_le_ratio_mul (r : Rat) :
    ∀ (L : List Item) (sel : List Bool),
      (∀ it ∈ L, (it.value : Rat) ≤ r * it.weight) →
      (completionValue L sel : Rat) ≤ r * (completionWeight L sel : Rat)
  | [], sel, _ => by
    cases sel <;> simp [completionValue, completionWeight]
  | it :: L, [], _ => by simp [completionValue, completionWeight]
  | it :: L, b :: bs, h => by
    have ih := completionValue_le_ratio_mul r L bs (fun x hx => h x (by simp [hx]))
    cases b with
    | false =>
      simpa [completionValue, completionWeight] using ih
    | true =>
      have hv := h it (by simp)
      simp only [completionValue, completionWeight, if_pos]
      push_cast
      nlinarith [ih, hv]

theorem fracRemainder_nonneg :
    ∀ (L : List Item) (rem : Nat), (∀ it ∈ L, 0 ≤ it.ratio) → 0 ≤ fracRemainder L rem
  | [], rem, _ => le_refl 0
  | it :: L, rem, h => by
    unfold fracRemainder
    split
    · have ih := fracRemainder_nonneg L (rem - it.weight) (fun x hx => h x (by simp [hx]))
      positivity
    · have hr := h it (by simp)
      positivity

theorem fracRemainder_le (r : Rat) (hr : 0 ≤ r) :
    ∀ (L : List Item) (rem : Nat),
      (∀ it ∈ L, (it.value : Rat) ≤ r * it.weight) → (∀ it ∈ L, it.ratio ≤ r) →
      fracRemainder L rem ≤ r * (rem : Rat)
  | [], rem, _, _ => by
    simp only [fracRemainder]
    positivity
  | it :: L, rem, hv, hrat => by
    unfold fracRemainder
    split
    case isTrue hfits =>
      have ih := fracRemainder_le r hr L (rem - it.weight)
        (fun x hx => hv x (by simp [hx])) (fun x hx => hrat x (by simp [hx]))
      have hv0 := hv it (by simp)
      have hcast : ((rem - it.weight : Nat) : Rat) = (rem : Rat) - (it.weight : Rat) := by
        push_cast [hfits]
        ring
      rw [hcast] at ih
      nlinarith [ih, hv0]
    case isFalse hnofits =>
      have h0 := hrat it (by simp)
      have : (0 : Rat) ≤ (rem : Rat) := by positivity
      nlinarith [h0, this]

theorem fracRemainder_mono_add (r : Rat) (hr : 0 ≤ r) :
    ∀ (L : List Item) (rem d : Nat),
      (∀ it ∈ L, 0 < it.weight) →
      (∀ it ∈ L, it.ratio = (it.value : Rat) / (it.weight : Rat)) →
      (∀ it ∈ L, (it.value : Rat) ≤ r * it.weight) → (∀ it ∈ L, it.ratio ≤ r) →
      fracRemainder L (rem + d) ≤ fracRemainder L rem + r * (d : Rat)
  | [], rem, d, _, _, _, _ => by
    simp only [fracRemainder]
    positivity
  | it :: L, rem, d, hw, hco, hv, hrat => by
    have hwpos := hw it (by simp)
    have hco0 := hco it (by simp)
    have hv0 := hv it (by simp)
    have hrat0 := hrat it (by simp)
    have hratmul : it.ratio * (it.weight : Rat) = (it.value : Rat) := by
      rw [hco0]
      field_simp
    unfold fracRemainder
    by_cases h1 : it.weight ≤ rem
    · rw [if_pos (by omega : it.weight ≤ rem + d), if_pos h1]
      have ih := fracRemainder_mono_add r hr L (rem - it.weight) d
        (fun x hx => hw x (by simp [hx])) (fun x hx => hco x (by simp [hx]))
        (fun x hx => hv x (by simp [hx])) (fun x hx => hrat x (by simp [hx]))
      have heq : rem + d - it.weight = (rem - it.weight) + d := by omega
      rw [heq]
      nlinarith [ih]
    · rw [if_neg h1]
      by_cases h2 : it.weight ≤ rem + d
      · rw [if_pos h2]
        have hle := fracRemainder_le r hr L (rem + d - it.weight)
          (fun x hx => hv x (by simp [hx])) (fun x hx => hrat x (by simp [hx]))
        have hcast : ((rem + d - it.weight : Nat) : Rat) =
            (rem : Rat) + (d : Rat) - (it.weight : Rat) := by
          push_cast [h2]
          ring
        rw [hcast] at hle
        have hremw : (rem : Rat) ≤ (it.weight : Rat) := by
          exact_mod_cast le_of_lt (not_le.mp h1)
        have hwq : (0 : Rat) < (it.weight : Rat) := by exact_mod_cast hwpos
        nlinarith [hle, hremw, hwq, hratmul, hrat0]
      · rw [if_neg h2]
        have hd : (0 : Rat) ≤ (d : Rat) := by positivity
        push_cast
        nlinarith [hrat0, hd]

/-- Core admissibility of the fractional bound on a ratio-sorted suffix:
the greedy fractional value dominates every 0/1 completion that fits the
remaining capacity. -/
theorem fracRemainder_ge_completion :
    ∀ (L : List Item) (rem : Nat) (sel : List Bool),
      (∀ it ∈ L, 0 < it.weight) →
      (∀ it ∈ L, it.ratio = (it.value : Rat) / (it.weight : Rat)) →
      L.Pairwise (fun a b => b.ratio ≤ a.ratio) →
      completionWeight L sel ≤ rem →
      (completionValue L sel : Rat) ≤ fracRemainder L rem
  | [], rem, sel, _, _, _, _ => by
    cases sel <;> simp [completionValue, fracRemainder]
  | it :: L, rem, [], hw, hco, _, _ => by
    simp only [completionValue]
    refine fracRemainder_nonneg (it :: L) _ ?_
    intro x hx
    rw [hco x hx]
    positivity
  | it :: L, rem, b :: bs, hw, hco, hs, hfit => by
    have hwpos := hw it (by simp)
    have hco0 := hco it (by simp)
    have hwq : (0 : Rat) < (it.weight : Rat) := by exact_mod_cast hwpos
    have hratnn : 0 ≤ it.ratio := by
      rw [hco0]
      positivity
    have hratmul : it.ratio * (it.weight : Rat) = (it.value : Rat) := by
      rw [hco0]
      field_simp
    have hvle : ∀ x ∈ L, (x.value : Rat) ≤ it.ratio * x.weight := by
      intro x hx
      have hxw : (0 : Rat) < (x.weight : Rat) := by exact_mod_cast hw x (by simp [hx])
      have hxr := List.rel_of_pairwise_cons hs hx
      rw [hco x (by simp [hx])] at hxr
      rw [div_le_iff hxw] at hxr
      linarith [hxr]
    have hrle : ∀ x ∈ L, x.ratio ≤ it.ratio := fun x hx => List.rel_of_pairwise_cons hs hx
    unfold fracRemainder
    by_cases h1 : it.weight ≤ rem
    · rw [if_pos h1]
      cases b with
      | true =>
        have hfit' : completionWeight L bs ≤ rem - it.weight := by
          simp only [completionWeight, if_pos] at hfit
          omega
        have ih := fracRemainder_ge_completion L (rem - it.weight) bs
          (fun x hx => hw x (by simp [hx])) (fun x hx => hco x (by simp [hx]))
          (List.Pairwise.of_cons hs) hfit'
        simp only [completionValue, if_pos]
        push_cast
        linarith [ih]
      | false =>
        have hfit' : completionWeight L bs ≤ rem := by
          simp only [completionWeight] at hfit
          omega
        have ih := fracRemainder_ge_completion L rem bs
          (fun x hx => hw x (by simp [hx])) (fun x hx => hco x (by simp [hx]))
          (List.Pairwise.of_cons hs) hfit'
        have hmono := fracRemainder_mono_add it.ratio hratnn L (rem - it.weight) it.weight
          (fun x hx => hw x (by simp [hx])) (fun x hx => hco x (by simp [hx]))
          hvle hrle
        have heq : (rem - it.weight) + it.weight = rem := by omega
        rw [heq] at hmono
        simp only [completionValue, if_neg]
        push_cast
        nlinarith [ih, hmono, hratmul]
    · rw [if_neg h1]
      cases b with
      | true =>
        exfalso
        simp only [completionWeight, if_pos] at hfit
        omega
      | false =>
        have hfit' : completionWeight L bs ≤ rem := by
          simp only [completionWeight] at hfit
          omega
        have hcv := completionValue_le_ratio_mul it.ratio L bs hvle
        have hcw : (completionWeight L bs : Rat) ≤ (rem : Rat) := by exact_mod_cast hfit'
        simp only [completionValue, if_neg]
        push_cast
        nlinarith [hcv, hcw, hratnn]

end Knapsack

namespace Claims

/-- The single item of the C2 counterexample: weight 1, value 10,
ratio 10. -/
def cexItem : Knapsack.Item := ⟨1, 10, 0, 10⟩

/-- A node that has taken that item and weighs exactly the capacity 1,
with accrued profit 10 (the include child the solver builds from the
root). -/
def cexNode : Knapsack.KnapsackNode := ⟨1, 10, 1, 0, [true]⟩

/-- Counterexample to claim C2 as stated: `cexNode` weighs exactly the
capacity (so its weight does not exceed it), the empty completion fits
the remaining capacity, yet `calculate_bound` returns 0, strictly below
the node's own accrued profit 10, because the function zeroes the bound
whenever `weight >= capacity` instead of only when the capacity is
exceeded. -/
theorem knapsack_bound_zero_at_full_weight :
    cexNode.weight ≤ 1 ∧
      Knapsack.completionWeight ([cexItem].drop cexNode.level) [] ≤ 1 - cexNode.weight ∧
      Knapsack.calculate_bound [cexItem] 1 cexNode <
        (cexNode.profit : Rat) +
          (Knapsack.completionValue ([cexItem].drop cexNode.level) [] : Rat) := by
  with_unfolding_all decide

/-- Claim C2 as amended: the knapsack bound is admissible for every node
whose weight is STRICTLY below the capacity.  For items with positive
weights, `ratio` fields equal to `value / weight` and sorted by
non-increasing ratio from the node's level onward (which `solve_knapsack`
establishes before the search), `calculate_bound` dominates the accrued
profit plus the profit of every completion that fits the remaining
capacity. -/
theorem knapsack_bound_admissible_below_capacity
    (items : List Knapsack.Item) (capacity : Nat) (node : Knapsack.KnapsackNode)
    (sel : List Bool)
    (hw : ∀ it ∈ items.drop node.level, 0 < it.weight)
    (hr : ∀ it ∈ items.drop node.level, it.ratio = (it.value : Rat) / (it.weight : Rat))
    (hs : (items.drop node.level).Pairwise (fun a b => b.ratio ≤ a.ratio))
    (hcap : node.weight < capacity)
    (hfit : Knapsack.completionWeight (items.drop node.level) sel ≤ capacity - node.weight) :
    (node.profit : Rat) + (Knapsack.completionValue (items.drop node.level) sel : Rat) ≤
      Knapsack.calculate_bound items capacity node := by
  unfold Knapsack.calculate_bound
  rw [if_neg (by omega : ¬ capacity ≤ node.weight)]
  have h := Knapsack.fracRemainder_ge_completion (items.drop node.level)
    (capacity - node.weight) sel hw hr hs hfit
  linarith [h]

/-- First item of the C2 witness instance: weight 2, value 3. -/
def witItemA : Knapsack.Item := ⟨2, 3, 0, 3 / 2⟩

/-- Second item of the C2 witness instance: weight 2, value 1. -/
def witItemB : Knapsack.Item := ⟨2, 1, 1, 1 / 2⟩

/-- Root node of the C2 witness instance. -/
def witNode : Knapsack.KnapsackNode := ⟨0, 0, 0, 0, []⟩

/-- Witness for the amended C2: the root node of a concrete two-item
instance with capacity 3 and the completion taking only the first item. -/
theorem knapsack_bound_admissible_below_capacity_witness :
    (witNode.profit : Rat) +
        (Knapsack.completionValue ([witItemA, witItemB].drop witNode.level) [true, false] : Rat) ≤
      Knapsack.calculate_bound [witItemA, witItemB] 3 witNode :=
  knapsack_bound_admissible_below_capacity [witItemA, witItemB] 3 witNode [true, false]
    (by with_unfolding_all decide) (by with_unfolding_all decide)
    (by with_unfolding_all decide) (by with_unfolding_all decide)
    (by with_unfolding_all decide)

end Claims

namespace TSP

theorem pathCost_append_single (graph : Nat → Nat → Int) :
    ∀ (p : List Nat) (hne : p ≠ []) (c : Nat),
      pathCost graph (p ++ [c]) = pathCost graph p + graph (p.getLast hne) c
  | [], hne, c => absurd rfl hne
  | [a], _, c => by simp [pathCost]
  | a :: b :: t, hcons, c => by
    have ih := pathCost_append_single graph (b :: t) (by simp) c
    have hlast : (a :: b :: t).getLast hcons = (b :: t).getLast (by simp) :=
      List.getLast_cons (by simp)
    simp only [List.cons_append, pathCost, List.append_eq] at ih ⊢
    rw [ih, hlast]
    ring

theorem getD_last_of_length (p : List Nat) (hne : p ≠ []) (k : Nat) (hk : p.length = k + 1) :
    p.getD k 0 = p.getLast hne := by
  have hk' : k < p.length := by omega
  have h1 : p.getD k 0 = p[k] := by
    rw [List.getD_eq_getElem?_getD, List.getElem?_eq_getElem hk']
    rfl
  have h2 : p.length - 1 = k := by omega
  rw [h1, List.getLast_eq_getElem]
  simp only [h2]

/-- On a complete path, the value the driver compares against the
incumbent (accrued cost plus the closing edge read at `path[n-1]`) is the
true tour objective. -/
theorem terminal_total_eq_tourCost (graph : Nat → Nat → Int) (n : Nat) (p : List Nat)
    (hne : p ≠ []) (hlen : p.length = n) :
    pathCost graph p + graph (p.getD (n - 1) 0) 0 = tourCost graph p := by
  unfold tourCost
  have hl : p.length = (n - 1) + 1 := by
    have hp : 0 < p.length := List.length_pos.mpr hne
    omega
  rw [pathCost_append_single graph p hne 0, getD_last_of_length p hne (n - 1) hl]

end TSP

namespace Claims

/-- The 4-city symmetric distance matrix of concrete scenario B (also
test case 1 of `TravelingSalesman.c`). -/
def spec4Graph : Nat → Nat → Int := fun i j =>
  (([[0, 10, 15, 20], [10, 0, 35, 25], [15, 35, 0, 30], [20, 25, 30, 0]].getD i []).getD j 0)

/-- The run of `solve_tsp` on scenario B (13 nodes are popped in total,
so 10000 fuel steps exhaust the queue). -/
def tspSpecRun : TSP.TState := TSP.solve_tsp spec4Graph 4 [] 10000

/-- Counterexample to claim C3 as stated: the eighth node the real search
pops on scenario B is terminal (level 4, path 0-1-3-2) and its accrued
cost field holds 65, while the true objective value of the complete tour
it represents is 80, so the incumbent comparison cannot use the accrued
value directly; the driver must (and does) add the return edge first. -/
theorem tsp_terminal_accrued_ne_tour_cost :
    (tspSpecRun.popped.getD 7 TSP.dfltTNode).level = 4 ∧
      (tspSpecRun.popped.getD 7 TSP.dfltTNode).path = [0, 1, 3, 2] ∧
      (tspSpecRun.popped.getD 7 TSP.dfltTNode).cost = 65 ∧
      TSP.tourCost spec4Graph (tspSpecRun.popped.getD 7 TSP.dfltTNode).path = 80 ∧
      (tspSpecRun.popped.getD 7 TSP.dfltTNode).cost ≠
        TSP.tourCost spec4Graph (tspSpecRun.popped.getD 7 TSP.dfltTNode).path := by
  with_unfolding_all decide

/-- Claim C3 as amended: for every node the TSP branching rule can
construct, the accrued cost field equals the cost of the edges of the
(partial) path the node encodes; at a terminal node (level `n`) the value
the driver compares against the incumbent is the accrued cost PLUS the
closing edge `graph[path[n-1]][0]`, and that sum, not the accrued cost by
itself, equals the true objective value of the tour the node
represents. -/
theorem tsp_terminal_needs_return_edge (graph : Nat → Nat → Int) (n : Nat)
    (nd : TSP.TSPNode) (h : TSP.TReach graph n nd) :
    nd.path ≠ [] ∧ nd.level = nd.path.length ∧ nd.cost = TSP.pathCost graph nd.path ∧
      (nd.level = n →
        nd.cost + graph (nd.path.getD (n - 1) 0) 0 = TSP.tourCost graph nd.path) := by
  induction h with
  | root =>
    have hpath : (TSP.tRoot graph n).path = [0] := rfl
    have hcost : (TSP.tRoot graph n).cost = 0 := rfl
    have hlvl : (TSP.tRoot graph n).level = 1 := rfl
    refine ⟨?_, ?_, ?_, ?_⟩
    · simp [hpath]
    · simp [hpath, hlvl]
    · rw [hpath, hcost]
      simp [TSP.pathCost]
    · intro hterm
      have hn : n = 1 := by rw [hlvl] at hterm; omega
      subst hn
      rw [hpath, hcost]
      simp [TSP.tourCost, TSP.pathCost]
  | child nd city hre hlvl h1 h2 hv ih =>
    obtain ⟨hne, hlen, hcost, _⟩ := ih
    have hne' : nd.path ++ [city] ≠ [] := by simp
    have hgetD : nd.path.getD (nd.level - 1) 0 = nd.path.getLast hne := by
      refine TSP.getD_last_of_length nd.path hne (nd.level - 1) ?_
      have hp : 0 < nd.path.length := List.length_pos.mpr hne
      omega
    have hcost' : (TSP.tChild graph n nd city).cost =
        TSP.pathCost graph (nd.path ++ [city]) := by
      show nd.cost + graph (nd.path.getD (nd.level - 1) 0) city = _
      rw [hcost, hgetD, TSP.pathCost_append_single graph nd.path hne city]
    have hlen' : (TSP.tChild graph n nd city).path.length = nd.level + 1 := by
      show (nd.path ++ [city]).length = _
      simp [hlen]
    refine ⟨?_, ?_, ?_, ?_⟩
    · show nd.path ++ [city] ≠ []
      exact hne'
    · show nd.level + 1 = (TSP.tChild graph n nd city).path.length
      rw [hlen']
    · exact hcost'
    · intro hterm
      have hne2 : (TSP.tChild graph n nd city).path ≠ [] := hne'
      have hlenn : (TSP.tChild graph n nd city).path.length = n := by
        rw [hlen']
        exact hterm
      rw [hcost']
      exact TSP.terminal_total_eq_tourCost graph n _ hne2 hlenn

/-- The terminal node 0-1-3-2 of scenario B, built by three child steps
from the root. -/
def witTerminalNode : TSP.TSPNode :=
  TSP.tChild spec4Graph 4
    (TSP.tChild spec4Graph 4 (TSP.tChild spec4Graph 4 (TSP.tRoot spec4Graph 4) 1) 3) 2

/-- Witness for the amended C3 at the concrete terminal node 0-1-3-2 of
scenario B: its accrued cost plus the closing edge equals the tour
objective (65 + 15 = 80). -/
theorem tsp_terminal_needs_return_edge_witness :
    witTerminalNode.cost + spec4Graph (witTerminalNode.path.getD (4 - 1) 0) 0 =
      TSP.tourCost spec4Graph witTerminalNode.path := by
  have hr : TSP.TReach spec4Graph 4 witTerminalNode := by
    show TSP.TReach spec4Graph 4
      (TSP.tChild spec4Graph 4
        (TSP.tChild spec4Graph 4 (TSP.tChild spec4Graph 4 (TSP.tRoot spec4Graph 4) 1) 3) 2)
    refine TSP.TReach.child _ 2
      (TSP.TReach.child _ 3
        (TSP.TReach.child _ 1 TSP.TReach.root ?_ ?_ ?_ ?_) ?_ ?_ ?_ ?_) ?_ ?_ ?_ ?_
    all_goals with_unfolding_all decide
  have h := tsp_terminal_needs_return_edge spec4Graph 4 witTerminalNode hr
  exact h.2.2.2 (by with_unfolding_all decide)

end Claims

namespace Facility

/-! Embedding of `FacilityLocation.c`.  C `double` arithmetic is embedded
exactly in `ℚ` (the demo instances stay far from rounding trouble), and
the `DBL_MAX` sentinel is the exact value of the IEEE-754 double
`DBL_MAX`, `(2^53 - 1) * 2^971`.  The global arrays
`facility_costs[MAX_FACILITIES]` and
`service_costs[MAX_FACILITIES][MAX_CUSTOMERS]` are lists read through
`getD`, and the C local variables inside loop bodies are inlined (the
code is pure, so reading a value twice equals reading it once). -/

/-- The exact value of the IEEE-754 `DBL_MAX` constant used as the
infinity sentinel throughout `FacilityLocation.c`. -/
def DBL_MAX : Rat := (2 ^ 53 - 1) * 2 ^ 971

/-- The instance data of `FacilityLocation.c`: the globals
`num_facilities`, `num_customers`, `facility_costs`, `service_costs`
(lines 65-69). -/
structure FLCfg where
  num_facilities : Nat
  num_customers : Nat
  facility_costs : List Rat
  service_costs : List (List Rat)

/-- The global array read `facility_costs[i]`. -/
def fcost (cfg : FLCfg) (i : Nat) : Rat := cfg.facility_costs.getD i 0

/-- The global array read `service_costs[i][j]`. -/
def scost (cfg : FLCfg) (i j : Nat) : Rat := (cfg.service_costs.getD i []).getD j 0

/-- `get_current_service_cost` (lines 375-387): the minimum service cost
of `customer` over the open facilities, `DBL_MAX` if none is open. -/
def get_current_service_cost (cfg : FLCfg) (customer : Nat) (facility_open : List Bool) : Rat :=
  (List.range cfg.num_facilities).foldl
    (fun min_cost i =>
      if facility_open.getD i false ∧ scost cfg i customer < min_cost then scost cfg i customer
      else min_cost)
    DBL_MAX

/-- `calculate_improvement` (lines 357-373): the net gain of opening
`facility` given the open set and the served set; every still-unserved
customer contributes the amortized `DBL_MAX / num_customers`. -/
def calculate_improvement (cfg : FLCfg) (facility : Nat)
    (facility_open customer_served : List Bool) : Rat :=
  (List.range cfg.num_customers).foldl
    (fun improvement j =>
      if ¬ customer_served.getD j false then
        improvement + DBL_MAX / (cfg.num_customers : Rat)
      else
        if scost cfg facility j < get_current_service_cost cfg j facility_open then
          improvement + (get_current_service_cost cfg j facility_open - scost cfg facility j)
        else improvement)
    (-(fcost cfg facility))

/-- The local state of `greedy_heuristic` (lines 281-283): the open set,
the served set and the running total. -/
structure GState where
  facility_open : List Bool
  customer_served : List Bool
  total_cost : Rat

/-- The initial greedy state: the two zeroed fixed-size arrays
`facility_open[MAX_FACILITIES]` and `customer_served[MAX_CUSTOMERS]`
(lines 281-282). -/
def gInit : GState := ⟨List.replicate 10 false, List.replicate 15 false, 0⟩

/-- The selection scan of one greedy iteration (lines 287-298): the best
improvement over the still-closed facilities, `(0.0, -1)` when none
improves. -/
def greedyScan (cfg : FLCfg) (s : GState) : Rat × Int :=
  (List.range cfg.num_facilities).foldl
    (fun best i =>
      if ¬ s.facility_open.getD i false then
        if calculate_improvement cfg i s.facility_open s.customer_served > best.1 then
          (calculate_improvement cfg i s.facility_open s.customer_served, (i : Int))
        else best
      else best)
    (0, -1)

/-- The body of one greedy iteration after the scan picked
`best_facility` (lines 302-317): open it, pay its fixed cost, then serve
every unserved customer (paying its service cost) and re-price every
served one against the now-larger open set. -/
def greedyOpen (cfg : FLCfg) (s : GState) (best_facility : Nat) : GState :=
  let s1 : GState :=
    { s with
      facility_open := s.facility_open.set best_facility true
      total_cost := s.total_cost + fcost cfg best_facility }
  (List.range cfg.num_customers).foldl
    (fun t j =>
      if ¬ t.customer_served.getD j false then
        { t with
          customer_served := t.customer_served.set j true
          total_cost := t.total_cost + scost cfg best_facility j }
      else
        if scost cfg best_facility j < get_current_service_cost cfg j t.facility_open then
          { t with
            total_cost := t.total_cost - get_current_service_cost cfg j t.facility_open
              + scost cfg best_facility j }
        else t)
    s1

/-- The `while (1)` loop of `greedy_heuristic` (lines 286-318), with
explicit fuel.  Every iteration that does not break opens a still-closed
facility, so `num_facilities + 1` fuel reaches the loop's own break. -/
def greedyLoop (cfg : FLCfg) : Nat → GState → GState
  | 0, s => s
  | fuel + 1, s =>
    if (greedyScan cfg s).2 = -1 ∨ (greedyScan cfg s).1 ≤ 0 then s
    else greedyLoop cfg fuel (greedyOpen cfg s (greedyScan cfg s).2.toNat)

/-- The scan of the safety net (lines 324-333): the cheapest facility to
open for customer `j`, counting its fixed cost plus its service cost. -/
def cheapestToOpen (cfg : FLCfg) (j : Nat) : Rat × Int :=
  (List.range cfg.num_facilities).foldl
    (fun best i =>
      if fcost cfg i + scost cfg i j < best.1 then (fcost cfg i + scost cfg i j, (i : Int))
      else best)
    (DBL_MAX, -1)

/-- The safety net of `greedy_heuristic` (lines 321-340): for every
still-unserved customer, open the cheapest facility for it (if not
already open). -/
def ensureServed (cfg : FLCfg) (s : GState) : GState :=
  (List.range cfg.num_customers).foldl
    (fun t j =>
      if ¬ t.customer_served.getD j false then
        if (cheapestToOpen cfg j).2 ≠ -1 ∧
            ¬ t.facility_open.getD (cheapestToOpen cfg j).2.toNat false then
          { t with
            facility_open := t.facility_open.set (cheapestToOpen cfg j).2.toNat true
            total_cost := t.total_cost + fcost cfg (cheapestToOpen cfg j).2.toNat }
        else t
      else t)
    s

/-- The `FacilitySolution` struct (lines 44-50).  The C code leaves
`customer_assignment` uninitialized on the infeasible early return of
`construct_solution`; that branch is modelled with the empty list. -/
structure FacilitySolution where
  facility_open : List Bool
  customer_assignment : List Int
  fixed_cost : Rat
  service_cost : Rat
  total_cost : Rat

/-- The accumulation of `solution.fixed_cost` in the first loop of
`construct_solution` (lines 244-250). -/
def sumFixed (cfg : FLCfg) (facility_open : List Bool) : Rat :=
  (List.range cfg.num_facilities).foldl
    (fun acc i => if facility_open.getD i false then acc + fcost cfg i else acc) 0

/-- The `has_facility` flag of `construct_solution` (lines 243-250). -/
def hasOpen (cfg : FLCfg) (facility_open : List Bool) : Bool :=
  (List.range cfg.num_facilities).any (fun i => facility_open.getD i false)

/-- The per-customer scan of `construct_solution` (lines 258-267): the
cheapest open facility for customer `j` and its cost, `(DBL_MAX, -1)`
when no open facility exists. -/
def cheapestOpen (cfg : FLCfg) (facility_open : List Bool) (j : Nat) : Rat × Int :=
  (List.range cfg.num_facilities).foldl
    (fun best i =>
      if facility_open.getD i false ∧ scost cfg i j < best.1 then (scost cfg i j, (i : Int))
      else best)
    (DBL_MAX, -1)

/-- The assignment/service accumulation of `construct_solution`
(lines 258-271): the customer assignments and the service total. -/
def assignAcc (cfg : FLCfg) (facility_open : List Bool) : List Int × Rat :=
  (List.range cfg.num_customers).foldl
    (fun acc j => (acc.1 ++ [(cheapestOpen cfg facility_open j).2],
      acc.2 + (cheapestOpen cfg facility_open j).1))
    ([], 0)

/-- `construct_solution` (lines 236-275): the complete solution read off
a facility-open set; `DBL_MAX` total when no facility is open. -/
def construct_solution (cfg : FLCfg) (facility_open : List Bool) : FacilitySolution :=
  if hasOpen cfg facility_open then
    { facility_open := (List.range cfg.num_facilities).map (fun i => facility_open.getD i false)
      customer_assignment := (assignAcc cfg facility_open).1
      fixed_cost := sumFixed cfg facility_open
      service_cost := (assignAcc cfg facility_open).2
      total_cost := sumFixed cfg facility_open + (assignAcc cfg facility_open).2 }
  else
    { facility_open := (List.range cfg.num_facilities).map (fun i => facility_open.getD i false)
      customer_assignment := []
      fixed_cost := sumFixed cfg facility_open
      service_cost := 0
      total_cost := DBL_MAX }

/-- `greedy_heuristic` (lines 280-355): run the greedy loop, apply the
safety net, and read the resulting solution off the final open set (the
C builds `greedy_node` carrying exactly that set and hands it to
`construct_solution`). -/
def greedy_heuristic (cfg : FLCfg) (fuel : Nat) : FacilitySolution :=
  construct_solution cfg (ensureServed cfg (greedyLoop cfg fuel gInit)).facility_open

/-- The incumbent initialization of `solve_facility_location`
(lines 412-426): `best_cost` starts at the `DBL_MAX` sentinel and is
overwritten with the greedy total exactly when that total is not
`DBL_MAX`; the pre-run residual content of the global `best_solution` is
the explicit parameter `best_solution0`. -/
def initBest (cfg : FLCfg) (fuel : Nat) (best_solution0 : FacilitySolution) :
    Rat × FacilitySolution :=
  if (greedy_heuristic cfg fuel).total_cost ≠ DBL_MAX then
    ((greedy_heuristic cfg fuel).total_cost, greedy_heuristic cfg fuel)
  else (DBL_MAX, best_solution0)

end Facility

/-- A fold keeps any property each step keeps, step hypotheses restricted
to the folded list. -/
theorem foldl_invariant_mem {σ ι : Type} (f : σ → ι → σ) (P : σ → Prop) :
    ∀ (l : List ι), (∀ s a, a ∈ l → P s → P (f s a)) → ∀ s, P s → P (List.foldl f s l)
  | [], _, _, h => h
  | a :: t, hstep, s, h =>
    foldl_invariant_mem f P t (fun s b hb => hstep s b (List.mem_cons_of_mem a hb))
      (f s a) (hstep s a (List.mem_cons_self a t) h)

/-- Folding a constant increment adds `length * c`. -/
theorem foldl_add_const {ι : Type} (c : Rat) :
    ∀ (l : List ι) (x : Rat), l.foldl (fun a _ => a + c) x = x + l.length * c
  | [], x => by simp
  | a :: t, x => by
    have ih := foldl_add_const c t (x + c)
    simp only [List.foldl_cons, List.length_cons] at ih ⊢
    rw [ih]
    push_cast
    ring

/-- Two pointwise-equal step functions fold identically. -/
theorem foldl_congr_of_all {σ ι : Type} (f g : σ → ι → σ) (l : List ι) (s : σ)
    (h : ∀ s i, f s i = g s i) : l.foldl f s = l.foldl g s := by
  have hfg : f = g := funext fun s => funext fun i => h s i
  rw [hfg]

/-- A fold whose every step can only decrease a valuation never ends
above its start. -/
theorem foldl_le_of_step_le {σ : Type} (v : σ → Rat) (f : σ → Nat → σ) :
    ∀ (l : List Nat), (∀ s i, i ∈ l → v (f s i) ≤ v s) → ∀ s, v (l.foldl f s) ≤ v s
  | [], _, _ => le_refl _
  | a :: t, h, s =>
    le_trans
      (foldl_le_of_step_le v f t (fun s i hi => h s i (List.mem_cons_of_mem a hi)) (f s a))
      (h s a (List.mem_cons_self a t))

/-- A fold whose every step can only increase a valuation never ends
below its start. -/
theorem foldl_ge_of_step_ge {σ : Type} (v : σ → Rat) (f : σ → Nat → σ) :
    ∀ (l : List Nat), (∀ s i, i ∈ l → v s ≤ v (f s i)) → ∀ s, v s ≤ v (l.foldl f s)
  | [], _, _ => le_refl _
  | a :: t, h, s =>
    le_trans (h s a (List.mem_cons_self a t))
      (foldl_ge_of_step_ge v f t (fun s i hi => h s i (List.mem_cons_of_mem a hi)) (f s a))

/-- In a valuation-decreasing fold, one visited index that forces the
valuation at or below `c` bounds the final valuation by `c`. -/
theorem foldl_le_of_reach {σ : Type} (v : σ → Rat) (f : σ → Nat → σ) (i0 : Nat) (c : Rat) :
    ∀ (l : List Nat), (∀ s i, i ∈ l → v (f s i) ≤ v s) → (∀ s, v (f s i0) ≤ c) →
      i0 ∈ l → ∀ s, v (l.foldl f s) ≤ c
  | [], _, _, hmem, _ => absurd hmem (List.not_mem_nil i0)
  | a :: t, hmono, hreach, hmem, s => by
    rcases List.mem_cons.mp hmem with he | hmem'
    · rw [← he]
      exact le_trans
        (foldl_le_of_step_le v f t (fun s i hi => hmono s i (List.mem_cons_of_mem _ hi)) (f s i0))
        (hreach s)
    · exact foldl_le_of_reach v f i0 c t
        (fun s i hi => hmono s i (List.mem_cons_of_mem a hi)) hreach hmem' (f s a)

/-- In a valuation-increasing fold, one visited index that forces the
valuation at or above `c` bounds the final valuation from below by `c`. -/
theorem foldl_ge_of_reach {σ : Type} (v : σ → Rat) (f : σ → Nat → σ) (i0 : Nat) (c : Rat) :
    ∀ (l : List Nat), (∀ s i, i ∈ l → v s ≤ v (f s i)) → (∀ s, c ≤ v (f s i0)) →
      i0 ∈ l → ∀ s, c ≤ v (l.foldl f s)
  | [], _, _, hmem, _ => absurd hmem (List.not_mem_nil i0)
  | a :: t, hmono, hreach, hmem, s => by
    rcases List.mem_cons.mp hmem with he | hmem'
    · rw [← he]
      exact le_trans (hreach s)
        (foldl_ge_of_step_ge v f t (fun s i hi => hmono s i (List.mem_cons_of_mem _ hi)) (f s i0))
    · exact foldl_ge_of_reach v f i0 c t
        (fun s i hi => hmono s i (List.mem_cons_of_mem a hi)) hreach hmem' (f s a)

/-- A fold each of whose steps adds at most `c` to a valuation adds at
most `length * c` in total. -/
theorem foldl_le_linear {σ : Type} (v : σ → Rat) (f : σ → Nat → σ) (c : Rat) :
    ∀ (l : List Nat), (∀ s i, i ∈ l → v (f s i) ≤ v s + c) →
      ∀ s, v (l.foldl f s) ≤ v s + l.length * c
  | [], _, s => by simp
  | a :: t, h, s => by
    have ih := foldl_le_linear v f c t (fun s i hi => h s i (List.mem_cons_of_mem a hi)) (f s a)
    have h0 := h s a (List.mem_cons_self a t)
    simp only [List.foldl_cons, List.length_cons]
    push_cast
    linarith

/-- `getD` of an all-`false` list is `false` at every index. -/
theorem getD_replicate_false (n j : Nat) : (List.replicate n false).getD j false = false := by
  rcases Nat.lt_or_ge j n with h | h
  · rw [List.getD_eq_getElem?_getD, List.getElem?_replicate, if_pos h]
    rfl
  · rw [List.getD_eq_getElem?_getD, List.getElem?_replicate, if_neg (by omega)]
    rfl

/-- Setting `true` in range is read back by `getD`. -/
theorem getD_set_self_true (l : List Bool) (j : Nat) (hj : j < l.length) :
    (l.set j true).getD j false = true := by
  have hlen : j < (l.set j true).length := by simpa using hj
  rw [List.getD_eq_getElem?_getD, List.getElem?_eq_getElem hlen]
  simp [List.getElem_set_self]

/-- Setting any position to `true` keeps every `true` reading. -/
theorem getD_set_true_of (l : List Bool) (i j : Nat) (h : l.getD i false = true) :
    (l.set j true).getD i false = true := by
  have hi : i < l.length := by
    by_contra hge
    rw [List.getD_eq_getElem?_getD, List.getElem?_eq_none (by omega)] at h
    simp at h
  by_cases hij : j = i
  · subst hij
    exact getD_set_self_true l j hi
  · have hlen : i < (l.set j true).length := by simpa using hi
    rw [List.getD_eq_getElem?_getD, List.getElem?_eq_getElem hlen,
        List.getElem_set_of_ne hij true hlen]
    rw [List.getD_eq_getElem?_getD, List.getElem?_eq_getElem hi] at h
    simpa using h

/-- `getD` through `map` over `range`. -/
theorem getD_map_range (n j : Nat) (f : Nat → Bool) (hj : j < n) :
    ((List.range n).map f).getD j false = f j := by
  have hlen : j < ((List.range n).map f).length := by simpa using hj
  rw [List.getD_eq_getElem?_getD, List.getElem?_eq_getElem hlen]
  simp [List.getElem_map, List.getElem_range]

/-- `getD` through `map` over `range`, `Int`-valued. -/
theorem getD_map_range_int (n j : Nat) (f : Nat → Int) (d : Int) (hj : j < n) :
    ((List.range n).map f).getD j d = f j := by
  have hlen : j < ((List.range n).map f).length := by simpa using hj
  rw [List.getD_eq_getElem?_getD, List.getElem?_eq_getElem hlen]
  simp [List.getElem_map, List.getElem_range]

namespace Facility

/-- At the fresh greedy state every customer is unserved, so the
improvement of opening `facility` is the full sentinel minus the fixed
cost: `num_customers` amortized shares `DBL_MAX / num_customers` minus
`facility_costs[facility]`. -/
theorem calculate_improvement_fresh (cfg : FLCfg) (facility : Nat) (fo : List Bool)
    (hnc : 0 < cfg.num_customers) :
    calculate_improvement cfg facility fo (List.replicate 15 false) =
      DBL_MAX - fcost cfg facility := by
  unfold calculate_improvement
  refine Eq.trans (foldl_congr_of_all _
      (fun (a : Rat) (_ : Nat) => a + DBL_MAX / (cfg.num_customers : Rat)) _ _ ?_) ?_
  · intro s j
    rw [getD_replicate_false]
    simp
  · rw [foldl_add_const, List.length_range,
        mul_div_cancel₀ DBL_MAX ((Nat.cast_ne_zero).mpr (by omega) : (cfg.num_customers : Rat) ≠ 0)]
    ring

/-- The per-customer scan of `construct_solution` never ends above the
service cost of any open facility it visits. -/
theorem cheapestOpen_fst_le (cfg : FLCfg) (fo : List Bool) (j i0 : Nat)
    (hi0 : i0 < cfg.num_facilities) (ho : fo.getD i0 false = true) :
    (cheapestOpen cfg fo j).1 ≤ scost cfg i0 j := by
  unfold cheapestOpen
  refine foldl_le_of_reach Prod.fst _ i0 (scost cfg i0 j) (List.range cfg.num_facilities)
    ?_ ?_ (List.mem_range.mpr hi0) _
  · intro b i _
    dsimp only
    split_ifs with h
    · exact le_of_lt h.2
    · exact le_refl _
  · intro b
    dsimp only
    split_ifs with h
    · exact le_refl _
    · exact le_of_not_lt (fun hlt => h ⟨ho, hlt⟩)

/-- The per-customer scan stays non-negative when the service costs
are. -/
theorem cheapestOpen_fst_nonneg (cfg : FLCfg) (fo : List Bool) (j : Nat)
    (hsc : ∀ i, i < cfg.num_facilities → 0 ≤ scost cfg i j) :
    0 ≤ (cheapestOpen cfg fo j).1 := by
  unfold cheapestOpen
  refine foldl_invariant_mem _ (fun b : Rat × Int => 0 ≤ b.1) (List.range cfg.num_facilities)
    ?_ _ ?_
  · intro b i hi hb
    dsimp only
    split_ifs with h
    · exact hsc i (List.mem_range.mp hi)
    · exact hb
  · show (0 : Rat) ≤ DBL_MAX
    unfold DBL_MAX
    norm_num

/-- When the per-customer scan moved below the sentinel, its winner is an
open facility in range. -/
theorem cheapestOpen_snd_valid (cfg : FLCfg) (fo : List Bool) (j : Nat) :
    (cheapestOpen cfg fo j).1 < DBL_MAX →
      ∃ i, i < cfg.num_facilities ∧ (cheapestOpen cfg fo j).2 = (i : Int) ∧
        fo.getD i false = true := by
  unfold cheapestOpen
  refine foldl_invariant_mem _
    (fun b : Rat × Int => b.1 < DBL_MAX →
      ∃ i, i < cfg.num_facilities ∧ b.2 = (i : Int) ∧ fo.getD i false = true)
    (List.range cfg.num_facilities) ?_ _ ?_
  · intro b i hi hb
    dsimp only
    split_ifs with h
    · intro _
      exact ⟨i, List.mem_range.mp hi, rfl, h.1⟩
    · exact hb
  · intro h
    exact absurd h (lt_irrefl _)

/-- The fixed-cost accumulation is non-negative for non-negative facility
costs. -/
theorem sumFixed_nonneg (cfg : FLCfg) (fo : List Bool)
    (hfc : ∀ i, i < cfg.num_facilities → 0 ≤ fcost cfg i) :
    0 ≤ sumFixed cfg fo := by
  unfold sumFixed
  refine foldl_ge_of_step_ge (fun x : Rat => x) _ (List.range cfg.num_facilities) ?_ 0
  intro s i hi
  dsimp only
  split_ifs with h
  · have := hfc i (List.mem_range.mp hi)
    linarith
  · exact le_refl _

/-- The fixed-cost accumulation over at most ten facilities of cost at
most `2^500` is at most `10 * 2^500`. -/
theorem sumFixed_le (cfg : FLCfg) (fo : List Bool)
    (hfc : ∀ i, i < cfg.num_facilities → fcost cfg i ≤ 2 ^ 500)
    (hnf10 : cfg.num_facilities ≤ 10) :
    sumFixed cfg fo ≤ 10 * 2 ^ 500 := by
  have hstep : ∀ (s : Rat) i, i ∈ List.range cfg.num_facilities →
      (if fo.getD i false then s + fcost cfg i else s) ≤ s + 2 ^ 500 := by
    intro s i hi
    split_ifs with h
    · have := hfc i (List.mem_range.mp hi)
      linarith
    · have : (0 : Rat) ≤ 2 ^ 500 := by positivity
      linarith
  have h : (List.range cfg.num_facilities).foldl
        (fun acc i => if fo.getD i false then acc + fcost cfg i else acc) 0 ≤
      0 + ((List.range cfg.num_facilities).length : Rat) * 2 ^ 500 :=
    foldl_le_linear (fun x : Rat => x) _ (2 ^ 500) (List.range cfg.num_facilities) hstep 0
  simp only [List.length_range] at h
  unfold sumFixed
  have h2 : (cfg.num_facilities : Rat) * 2 ^ 500 ≤ 10 * 2 ^ 500 :=
    mul_le_mul_of_nonneg_right (by exact_mod_cast hnf10) (by positivity)
  linarith

/-- The assignment/service accumulation, split into its two
components. -/
theorem assignAcc_aux (cfg : FLCfg) (fo : List Bool) :
    ∀ (l : List Nat) (xs : List Int) (r : Rat),
      l.foldl (fun acc j => (acc.1 ++ [(cheapestOpen cfg fo j).2],
          acc.2 + (cheapestOpen cfg fo j).1)) (xs, r) =
        (xs ++ l.map (fun j => (cheapestOpen cfg fo j).2),
          l.foldl (fun r j => r + (cheapestOpen cfg fo j).1) r)
  | [], xs, r => by simp
  | a :: t, xs, r => by
    have ih := assignAcc_aux cfg fo t (xs ++ [(cheapestOpen cfg fo a).2])
      (r + (cheapestOpen cfg fo a).1)
    simp only [List.foldl_cons, List.map_cons] at ih ⊢
    rw [ih]
    simp

theorem assignAcc_eq (cfg : FLCfg) (fo : List Bool) :
    assignAcc cfg fo =
      ((List.range cfg.num_customers).map (fun j => (cheapestOpen cfg fo j).2),
        (List.range cfg.num_customers).foldl (fun r j => r + (cheapestOpen cfg fo j).1) 0) := by
  unfold assignAcc
  rw [assignAcc_aux cfg fo (List.range cfg.num_customers) [] 0]
  simp

/-- The service total is at most `num_customers * c` when every
per-customer minimum is at most `c`. -/
theorem assignAcc_snd_le (cfg : FLCfg) (fo : List Bool) (c : Rat)
    (hb : ∀ j, j < cfg.num_customers → (cheapestOpen cfg fo j).1 ≤ c) :
    (assignAcc cfg fo).2 ≤ cfg.num_customers * c := by
  rw [assignAcc_eq]
  have hstep : ∀ (s : Rat) j, j ∈ List.range cfg.num_customers →
      s + (cheapestOpen cfg fo j).1 ≤ s + c := by
    intro s j hj
    have := hb j (List.mem_range.mp hj)
    linarith
  have h : (List.range cfg.num_customers).foldl
        (fun r j => r + (cheapestOpen cfg fo j).1) 0 ≤
      0 + ((List.range cfg.num_customers).length : Rat) * c :=
    foldl_le_linear (fun x : Rat => x) _ c (List.range cfg.num_customers) hstep 0
  simp only [List.length_range] at h
  show (List.range cfg.num_customers).foldl (fun r j => r + (cheapestOpen cfg fo j).1) 0 ≤
    (cfg.num_customers : Rat) * c
  linarith

theorem assignAcc_snd_nonneg (cfg : FLCfg) (fo : List Bool)
    (hb : ∀ j, j < cfg.num_customers → 0 ≤ (cheapestOpen cfg fo j).1) :
    0 ≤ (assignAcc cfg fo).2 := by
  rw [assignAcc_eq]
  dsimp only
  refine foldl_ge_of_step_ge (fun x : Rat => x) _ (List.range cfg.num_customers) ?_ 0
  intro s j hj
  dsimp only
  have := hb j (List.mem_range.mp hj)
  linarith

/-- The customer loop of one greedy iteration never touches the open
set: after `greedyOpen` it is the parent's set with `best_facility`
switched on. -/
theorem greedyOpen_facility_open (cfg : FLCfg) (s : GState) (bf : Nat) :
    (greedyOpen cfg s bf).facility_open = s.facility_open.set bf true := by
  unfold greedyOpen
  dsimp only
  refine foldl_invariant_mem _
    (fun t : GState => t.facility_open = s.facility_open.set bf true)
    (List.range cfg.num_customers) ?_ _ rfl
  intro t j _ ht
  dsimp only
  split_ifs <;> exact ht

/-- The greedy loop never closes a facility. -/
theorem greedyLoop_open_mono (cfg : FLCfg) (i : Nat) :
    ∀ (fuel : Nat) (s : GState), s.facility_open.getD i false = true →
      (greedyLoop cfg fuel s).facility_open.getD i false = true
  | 0, _, h => h
  | fuel + 1, s, h => by
    unfold greedyLoop
    split
    · exact h
    · refine greedyLoop_open_mono cfg i fuel _ ?_
      rw [greedyOpen_facility_open]
      exact getD_set_true_of _ i _ h

/-- The safety net never closes a facility. -/
theorem ensureServed_open_mono (cfg : FLCfg) (i : Nat) (s : GState)
    (h : s.facility_open.getD i false = true) :
    (ensureServed cfg s).facility_open.getD i false = true := by
  unfold ensureServed
  refine foldl_invariant_mem _
    (fun t : GState => t.facility_open.getD i false = true)
    (List.range cfg.num_customers) ?_ _ h
  intro t j _ ht
  dsimp only
  split_ifs <;> first
    | exact ht
    | exact getD_set_true_of _ i _ ht

theorem construct_total_of_has (cfg : FLCfg) (fo : List Bool) (h : hasOpen cfg fo = true) :
    (construct_solution cfg fo).total_cost = sumFixed cfg fo + (assignAcc cfg fo).2 := by
  unfold construct_solution
  rw [if_pos h]

theorem construct_assignment_of_has (cfg : FLCfg) (fo : List Bool) (h : hasOpen cfg fo = true) :
    (construct_solution cfg fo).customer_assignment = (assignAcc cfg fo).1 := by
  unfold construct_solution
  rw [if_pos h]

/-- In range, the returned solution's open flags are the node's. -/
theorem construct_open_getD (cfg : FLCfg) (fo : List Bool) (i : Nat)
    (hi : i < cfg.num_facilities) :
    (construct_solution cfg fo).facility_open.getD i false = fo.getD i false := by
  unfold construct_solution
  split_ifs <;> exact getD_map_range cfg.num_facilities i _ hi

/-- At the fresh greedy state the selection scan finds a strictly
positive improvement (every customer is unserved, so opening facility 0
gains `DBL_MAX - facility_costs[0] > 0`). -/
theorem greedyScan_fresh_pos (cfg : FLCfg)
    (hnf : 0 < cfg.num_facilities) (hnc : 0 < cfg.num_customers)
    (hfc0 : fcost cfg 0 ≤ 2 ^ 500) :
    0 < (greedyScan cfg gInit).1 := by
  have hval : calculate_improvement cfg 0 gInit.facility_open gInit.customer_served =
      DBL_MAX - fcost cfg 0 := calculate_improvement_fresh cfg 0 gInit.facility_open hnc
  have h1 : DBL_MAX - fcost cfg 0 ≤ (greedyScan cfg gInit).1 := by
    unfold greedyScan
    refine foldl_ge_of_reach Prod.fst _ 0 (DBL_MAX - fcost cfg 0)
      (List.range cfg.num_facilities) ?_ ?_ (List.mem_range.mpr hnf) _
    · intro b i _
      dsimp only
      split_ifs <;> first
        | exact le_refl _
        | (rename_i hgt
           exact le_of_lt hgt)
    · intro b
      dsimp only
      have hg : ¬ gInit.facility_open.getD 0 false = true := by
        rw [show gInit.facility_open = List.replicate 10 false from rfl, getD_replicate_false]
        simp
      rw [if_pos hg, hval]
      split_ifs with h
      · exact le_refl _
      · exact le_of_not_lt h
  have h2 : (0 : Rat) < DBL_MAX - fcost cfg 0 := by
    have h3 : (2 : Rat) ^ 500 < DBL_MAX := by
      unfold DBL_MAX
      norm_num
    linarith
  linarith

/-- A strictly positive scan result names a still-closed facility in
range. -/
theorem greedyScan_snd_valid (cfg : FLCfg) (s : GState) :
    0 < (greedyScan cfg s).1 →
      ∃ i, i < cfg.num_facilities ∧ (greedyScan cfg s).2 = (i : Int) := by
  unfold greedyScan
  refine foldl_invariant_mem _
    (fun b : Rat × Int => 0 < b.1 → ∃ i, i < cfg.num_facilities ∧ b.2 = (i : Int))
    (List.range cfg.num_facilities) ?_ _ ?_
  · intro b i hi hb
    dsimp only
    split_ifs <;> first
      | exact hb
      | exact fun _ => ⟨i, List.mem_range.mp hi, rfl⟩
  · intro h
    exact absurd h (lt_irrefl 0)

/-- With any fuel at all, the greedy phase of `greedy_heuristic` leaves
at least one facility open: its very first iteration must open one, and
no later step closes any. -/
theorem greedy_heuristic_opens_a_facility (cfg : FLCfg) (fuel : Nat)
    (hnf : 0 < cfg.num_facilities) (hnf10 : cfg.num_facilities ≤ 10)
    (hnc : 0 < cfg.num_customers) (hfc0 : fcost cfg 0 ≤ 2 ^ 500) (hfuel : 0 < fuel) :
    ∃ i, i < cfg.num_facilities ∧
      (ensureServed cfg (greedyLoop cfg fuel gInit)).facility_open.getD i false = true := by
  obtain ⟨fuel', rfl⟩ : ∃ f', fuel = f' + 1 := ⟨fuel - 1, by omega⟩
  have hpos := greedyScan_fresh_pos cfg hnf hnc hfc0
  obtain ⟨i, hi, hsnd⟩ := greedyScan_snd_valid cfg gInit hpos
  have htoNat : (greedyScan cfg gInit).2.toNat = i := by
    rw [hsnd]
    exact Int.toNat_natCast i
  have hcond : ¬ ((greedyScan cfg gInit).2 = -1 ∨ (greedyScan cfg gInit).1 ≤ 0) := by
    rintro (hc | hc)
    · rw [hsnd] at hc
      omega
    · exact absurd hpos (not_lt.mpr hc)
  have hloop : greedyLoop cfg (fuel' + 1) gInit =
      greedyLoop cfg fuel' (greedyOpen cfg gInit (greedyScan cfg gInit).2.toNat) := by
    conv_lhs => unfold greedyLoop
    rw [if_neg hcond]
  refine ⟨i, hi, ?_⟩
  rw [hloop]
  apply ensureServed_open_mono
  apply greedyLoop_open_mono
  rw [greedyOpen_facility_open, htoNat]
  refine getD_set_self_true _ i ?_
  show i < (List.replicate 10 false).length
  simp only [List.length_replicate]
  omega

end Facility

namespace Claims

/-- The 4x4 cost matrix of concrete scenario C (job assignment). -/
def specAssignMatrix : Nat → Nat → Int := fun i j =>
  (([[9, 2, 7, 8], [6, 4, 3, 7], [5, 8, 1, 8], [7, 6, 9, 4]].getD i []).getD j 0)

/-- Counterexample to claim C6 as stated: on scenario C the
job-assignment adapter does NOT seed the incumbent from a greedy
heuristic; `solve_assignment` initializes `min_cost` to the `INF`
sentinel `INT_MAX` (JobAssignment.c line 170), so the first pruning
checks compare against infinity, not against any finite feasible
value. -/
theorem assignment_incumbent_starts_at_sentinel :
    (Assign.aInitState specAssignMatrix 4).min_cost = 2147483647 ∧
      Assign.INF = 2147483647 := by
  with_unfolding_all decide

/-- Claim C6 as amended: only the facility-location adapter seeds the
incumbent from the greedy heuristic; the job-assignment adapter
initializes its incumbent to the `INF` sentinel for every instance.  For
every facility-location configuration with at least one facility and one
customer, within the fixed array capacities (at most 10 facilities, 15
customers) and with all costs in `[0, 2^500]`, the pre-loop
initialization of `solve_facility_location` sets `best_cost` to the
greedy solution's total cost, that seed is strictly below the `DBL_MAX`
sentinel, `best_solution` becomes the greedy solution itself, and the
greedy seed is feasible: it opens at least one facility and assigns
every customer to an open facility. -/
theorem incumbent_seed_greedy_only_in_facility
    (cfg : Facility.FLCfg) (fuel : Nat) (best_solution0 : Facility.FacilitySolution)
    (hnf : 0 < cfg.num_facilities) (hnf10 : cfg.num_facilities ≤ 10)
    (hnc : 0 < cfg.num_customers) (hnc15 : cfg.num_customers ≤ 15)
    (hfc : ∀ i, i < cfg.num_facilities →
      0 ≤ Facility.fcost cfg i ∧ Facility.fcost cfg i ≤ 2 ^ 500)
    (hsc : ∀ i, i < cfg.num_facilities → ∀ j, j < cfg.num_customers →
      0 ≤ Facility.scost cfg i j ∧ Facility.scost cfg i j ≤ 2 ^ 500)
    (hfuel : 0 < fuel) :
    (∀ (cost_matrix : Nat → Nat → Int) (n : Nat),
        (Assign.aInitState cost_matrix n).min_cost = Assign.INF) ∧
    (Facility.initBest cfg fuel best_solution0).1 =
        (Facility.greedy_heuristic cfg fuel).total_cost ∧
    (Facility.initBest cfg fuel best_solution0).1 < Facility.DBL_MAX ∧
    (Facility.initBest cfg fuel best_solution0).2 = Facility.greedy_heuristic cfg fuel ∧
    (∃ i, i < cfg.num_facilities ∧
        (Facility.greedy_heuristic cfg fuel).facility_open.getD i false = true) ∧
    (∀ j, j < cfg.num_customers → ∃ i, i < cfg.num_facilities ∧
        (Facility.greedy_heuristic cfg fuel).customer_assignment.getD j (-1) = (i : Int) ∧
        (Facility.greedy_heuristic cfg fuel).facility_open.getD i false = true) := by
  obtain ⟨i0, hi0, ho⟩ := Facility.greedy_heuristic_opens_a_facility cfg fuel hnf hnf10 hnc
    (hfc 0 hnf).2 hfuel
  have hg : Facility.greedy_heuristic cfg fuel =
      Facility.construct_solution cfg
        (Facility.ensureServed cfg (Facility.greedyLoop cfg fuel Facility.gInit)).facility_open :=
    rfl
  set fo :=
    (Facility.ensureServed cfg (Facility.greedyLoop cfg fuel Facility.gInit)).facility_open
    with hfo
  have hhas : Facility.hasOpen cfg fo = true :=
    List.any_eq_true.mpr ⟨i0, List.mem_range.mpr hi0, ho⟩
  have h2500 : (2 : Rat) ^ 500 < Facility.DBL_MAX := by
    unfold Facility.DBL_MAX
    norm_num
  have hple : ∀ j, j < cfg.num_customers → (Facility.cheapestOpen cfg fo j).1 ≤ 2 ^ 500 :=
    fun j hj =>
      le_trans (Facility.cheapestOpen_fst_le cfg fo j i0 hi0 ho) (hsc i0 hi0 j hj).2
  have hpnn : ∀ j, j < cfg.num_customers → 0 ≤ (Facility.cheapestOpen cfg fo j).1 :=
    fun j hj => Facility.cheapestOpen_fst_nonneg cfg fo j (fun i hi => (hsc i hi j hj).1)
  have hserv_le : (Facility.assignAcc cfg fo).2 ≤ cfg.num_customers * (2 ^ 500 : Rat) :=
    Facility.assignAcc_snd_le cfg fo (2 ^ 500) hple
  have hserv15 : (Facility.assignAcc cfg fo).2 ≤ 15 * (2 ^ 500 : Rat) := by
    have hcast : ((cfg.num_customers : Nat) : Rat) ≤ 15 := by exact_mod_cast hnc15
    have := mul_le_mul_of_nonneg_right hcast (by positivity : (0 : Rat) ≤ 2 ^ 500)
    linarith
  have hfix_le : Facility.sumFixed cfg fo ≤ 10 * 2 ^ 500 :=
    Facility.sumFixed_le cfg fo (fun i hi => (hfc i hi).2) hnf10
  have htot_lt : (Facility.construct_solution cfg fo).total_cost < Facility.DBL_MAX := by
    rw [Facility.construct_total_of_has cfg fo hhas]
    have hnum : (10 : Rat) * 2 ^ 500 + 15 * 2 ^ 500 < Facility.DBL_MAX := by
      unfold Facility.DBL_MAX
      norm_num
    linarith
  have hgtot_lt : (Facility.greedy_heuristic cfg fuel).total_cost < Facility.DBL_MAX := by
    rw [hg]
    exact htot_lt
  have hinit : Facility.initBest cfg fuel best_solution0 =
      ((Facility.greedy_heuristic cfg fuel).total_cost, Facility.greedy_heuristic cfg fuel) := by
    unfold Facility.initBest
    rw [if_pos (ne_of_lt hgtot_lt)]
  refine ⟨fun _ _ => rfl, by rw [hinit], ?_, by rw [hinit], ?_, ?_⟩
  · rw [hinit]
    exact hgtot_lt
  · refine ⟨i0, hi0, ?_⟩
    rw [hg, Facility.construct_open_getD cfg fo i0 hi0]
    exact ho
  · intro j hj
    have hlt : (Facility.cheapestOpen cfg fo j).1 < Facility.DBL_MAX :=
      lt_of_le_of_lt (hple j hj) h2500
    obtain ⟨i, hi, hsnd, hoi⟩ := Facility.cheapestOpen_snd_valid cfg fo j hlt
    refine ⟨i, hi, ?_, ?_⟩
    · rw [hg, Facility.construct_assignment_of_has cfg fo hhas, Facility.assignAcc_eq]
      rw [show ((List.range cfg.num_customers).map
          (fun j => (Facility.cheapestOpen cfg fo j).2),
          (List.range cfg.num_customers).foldl
            (fun r j => r + (Facility.cheapestOpen cfg fo j).1) 0).1 =
          (List.range cfg.num_customers).map
            (fun j => (Facility.cheapestOpen cfg fo j).2) from rfl]
      rw [getD_map_range_int cfg.num_customers j _ (-1) hj]
      exact hsnd
    · rw [hg, Facility.construct_open_getD cfg fo i hi]
      exact hoi

/-- The one-facility, one-customer configuration used to witness the
amended C6: facility cost 2, service cost 3. -/
def witFLCfg : Facility.FLCfg := ⟨1, 1, [2], [[3]]⟩

/-- A residual pre-run `best_solution` content for the witness. -/
def witFLSol0 : Facility.FacilitySolution := ⟨[], [], 0, 0, 0⟩

/-- Witness for the amended C6 on the concrete one-facility,
one-customer configuration: the assignment incumbent starts at the
sentinel while the facility incumbent starts at the greedy seed, which
is finite and feasible. -/
theorem incumbent_seed_greedy_only_in_facility_witness :
    (Assign.aInitState (fun _ _ => (0 : Int)) 4).min_cost = Assign.INF ∧
    (Facility.initBest witFLCfg 1 witFLSol0).1 =
        (Facility.greedy_heuristic witFLCfg 1).total_cost ∧
    (Facility.initBest witFLCfg 1 witFLSol0).1 < Facility.DBL_MAX ∧
    (Facility.initBest witFLCfg 1 witFLSol0).2 = Facility.greedy_heuristic witFLCfg 1 ∧
    (∃ i, i < witFLCfg.num_facilities ∧
        (Facility.greedy_heuristic witFLCfg 1).facility_open.getD i false = true) ∧
    (∃ i, i < witFLCfg.num_facilities ∧
        (Facility.greedy_heuristic witFLCfg 1).customer_assignment.getD 0 (-1) = (i : Int) ∧
        (Facility.greedy_heuristic witFLCfg 1).facility_open.getD i false = true) := by
  set_option maxRecDepth 4000 in
  have h := incumbent_seed_greedy_only_in_facility witFLCfg 1 witFLSol0
    (by with_unfolding_all decide) (by with_unfolding_all decide)
    (by with_unfolding_all decide) (by with_unfolding_all decide)
    (by with_unfolding_all decide) (by with_unfolding_all decide)
    (by with_unfolding_all decide)
  exact ⟨h.1 (fun _ _ => (0 : Int)) 4, h.2.1, h.2.2.1, h.2.2.2.1, h.2.2.2.2.1,
    h.2.2.2.2.2 0 (by with_unfolding_all decide)⟩

end Claims

namespace Hub

/-! Queue-growth analysis of `solve_tsp` used by the capacity claim.  On
the 20-city "hub" instance below, the best-first order explores the
shallow levels of the search tree exhaustively before it can ever reach
a complete tour, so the frontier grows by at least 15 nodes per popped
node; after 667 iterations the queue holds more than the 10000 nodes the
C array `pq.nodes[10000]` can store, while `pq_push`
(TravelingSalesman.c lines 81-95) performs no capacity check before
writing at `pq->size++`. -/

/-- The hub instance: city 0 is 1 away from everybody, every other pair
of cities is 100 apart. -/
def gH : Nat → Nat → Int := fun i j =>
  if i = j then 0 else if i = 0 ∨ j = 0 then 1 else 100

/-- The `visited` array a chain of `tChild` steps builds along a path:
each city of the path switched on in a 20-entry array. -/
def visitedOf (p : List Nat) : List Bool :=
  p.foldl (fun v c => v.set c true) (List.replicate 20 false)

/-- Closed form of the bound of every search-tree node at level `k` on
the hub instance. -/
def hubBound (k : Nat) : Int := if k = 1 then 951 else 50 * k + 851

/-- The node the search tree of the hub instance holds for a partial
path `p`. -/
def mkNode (p : List Nat) : TSP.TSPNode :=
  ⟨p, visitedOf p, TSP.pathCost gH p, hubBound p.length, p.length⟩

/-- The paths the branching rule can build: distinct cities below 20,
starting at city 0. -/
def ValidPath (p : List Nat) : Prop :=
  p.Nodup ∧ p.head? = some 0 ∧ ∀ c ∈ p, c < 20

instance : DecidablePred ValidPath := fun p => by
  unfold ValidPath
  infer_instance

theorem validPath_destruct (p : List Nat) (h : ValidPath p) :
    ∃ q, p = 0 :: q ∧ q.Nodup ∧ 0 ∉ q ∧ ∀ c ∈ q, c < 20 := by
  obtain ⟨hnd, hhead, hlt⟩ := h
  cases p with
  | nil => simp at hhead
  | cons a q =>
    obtain rfl : a = 0 := by simpa using hhead
    refine ⟨q, rfl, (List.nodup_cons.mp hnd).2, (List.nodup_cons.mp hnd).1, ?_⟩
    intro c hc
    exact hlt c (List.mem_cons_of_mem _ hc)

theorem zero_mem_valid (p : List Nat) (h : ValidPath p) : 0 ∈ p := by
  obtain ⟨q, rfl, -, -, -⟩ := validPath_destruct p h
  exact List.mem_cons_self 0 q

theorem valid_ne_nil (p : List Nat) (h : ValidPath p) : p ≠ [] := by
  obtain ⟨q, rfl, -, -, -⟩ := validPath_destruct p h
  simp

theorem valid_len1 (p : List Nat) (h : ValidPath p) (h1 : p.length = 1) : p = [0] := by
  obtain ⟨q, rfl, -, -, -⟩ := validPath_destruct p h
  cases q with
  | nil => rfl
  | cons b t => simp at h1

theorem getLast_valid_pos (p : List Nat) (h : ValidPath p) (h2 : 2 ≤ p.length)
    (hne : p ≠ []) : 1 ≤ p.getLast hne := by
  obtain ⟨q, rfl, hnd, h0, hlt⟩ := validPath_destruct p h
  cases q with
  | nil => simp at h2
  | cons b t =>
    have hmem : (0 :: b :: t).getLast hne ∈ b :: t := by
      rw [List.getLast_cons (by simp)]
      exact List.getLast_mem _
    have : (0 :: b :: t).getLast hne ≠ 0 := fun he => h0 (he ▸ hmem)
    omega

theorem valid_append (p : List Nat) (c : Nat) (h : ValidPath p) (hc20 : c < 20)
    (hcp : c ∉ p) : ValidPath (p ++ [c]) := by
  obtain ⟨q, rfl, hnd, h0, hlt⟩ := validPath_destruct p h
  refine ⟨?_, rfl, ?_⟩
  · rw [List.nodup_append]
    refine ⟨h.1, List.nodup_singleton c, ?_⟩
    intro x hx hxc
    rw [List.mem_singleton] at hxc
    exact hcp (hxc ▸ hx)
  · intro d hd
    rcases List.mem_append.mp hd with hd | hd
    · exact h.2.2 d hd
    · rw [List.mem_singleton] at hd
      exact hd ▸ hc20

theorem valid_dropLast (p : List Nat) (h : ValidPath p) (h2 : 2 ≤ p.length) :
    ValidPath p.dropLast := by
  obtain ⟨q, rfl, hnd, h0, hlt⟩ := validPath_destruct p h
  cases q with
  | nil => simp at h2
  | cons b t =>
    refine ⟨List.Nodup.sublist (List.dropLast_sublist _) h.1, ?_, ?_⟩
    · rw [List.dropLast_cons₂]
      rfl
    · intro d hd
      exact h.2.2 d ((List.dropLast_sublist _).subset hd)

theorem length_foldl_set : ∀ (p : List Nat) (v : List Bool),
    (p.foldl (fun v c => v.set c true) v).length = v.length
  | [], _ => rfl
  | c :: t, v => by
    rw [List.foldl_cons, length_foldl_set t, List.length_set]

theorem getD_set_ne (v : List Bool) (c i : Nat) (b : Bool) (h : i ≠ c) :
    (v.set c b).getD i false = v.getD i false := by
  rw [List.getD_eq_getElem?_getD, List.getD_eq_getElem?_getD, List.getElem?_set_ne (Ne.symm h)]

theorem getD_foldl_set : ∀ (p : List Nat) (v : List Bool) (i : Nat),
    (∀ c ∈ p, c < v.length) →
    ((p.foldl (fun v c => v.set c true) v).getD i false = true ↔
      i ∈ p ∨ v.getD i false = true)
  | [], v, i, _ => by simp
  | c :: t, v, i, h => by
    rw [List.foldl_cons]
    have ih := getD_foldl_set t (v.set c true) i (fun d hd => by
      rw [List.length_set]
      exact h d (List.mem_cons_of_mem _ hd))
    rw [ih]
    constructor
    · rintro (hm | hv)
      · exact Or.inl (List.mem_cons_of_mem _ hm)
      · by_cases hic : i = c
        · exact Or.inl (hic ▸ List.mem_cons_self c t)
        · rw [getD_set_ne v c i true hic] at hv
          exact Or.inr hv
    · rintro (hm | hv)
      · rcases List.mem_cons.mp hm with rfl | hm'
        · exact Or.inr (getD_set_self_true v i (h i (List.mem_cons_self i t)))
        · exact Or.inl hm'
      · exact Or.inr (getD_set_true_of v i c hv)

theorem visitedOf_getD (p : List Nat) (hlt : ∀ c ∈ p, c < 20) (i : Nat) :
    ((visitedOf p).getD i false = true ↔ i ∈ p) := by
  unfold visitedOf
  rw [getD_foldl_set p _ i (by simpa using hlt), getD_replicate_false]
  simp

theorem visitedOf_append (p : List Nat) (c : Nat) :
    visitedOf (p ++ [c]) = (visitedOf p).set c true := by
  unfold visitedOf
  rw [List.foldl_append]
  rfl

theorem pathCost_tail : ∀ (t : List Nat) (a : Nat), 1 ≤ a → (∀ c ∈ t, 1 ≤ c) →
    (a :: t).Nodup → TSP.pathCost gH (a :: t) = 100 * t.length
  | [], _, _, _, _ => by simp [TSP.pathCost]
  | b :: t, a, ha, hm, hnd => by
    have hb : 1 ≤ b := hm b (List.mem_cons_self b t)
    have hab : a ≠ b := by
      have h1 := (List.nodup_cons.mp hnd).1
      intro he
      exact h1 (he ▸ List.mem_cons_self b t)
    have ih := pathCost_tail t b hb
      (fun c hc => hm c (List.mem_cons_of_mem _ hc)) (List.nodup_cons.mp hnd).2
    rw [show TSP.pathCost gH (a :: b :: t) = gH a b + TSP.pathCost gH (b :: t) from rfl, ih]
    have hgab : gH a b = 100 := by
      unfold gH
      rw [if_neg hab, if_neg (by omega)]
    rw [hgab]
    simp only [List.length_cons]
    push_cast
    ring

theorem pathCost_valid (p : List Nat) (h : ValidPath p) (h2 : 2 ≤ p.length) :
    TSP.pathCost gH p = 1 + 100 * ((p.length : Int) - 2) := by
  obtain ⟨q, rfl, hnd, h0, hlt⟩ := validPath_destruct p h
  cases q with
  | nil => simp at h2
  | cons a t =>
    have ha1 : 1 ≤ a := by
      have : a ≠ 0 := fun he => h0 (he ▸ List.mem_cons_self a t)
      omega
    have htail := pathCost_tail t a ha1
      (fun c hc => by
        have : c ≠ 0 := fun he => h0 (he ▸ List.mem_cons_of_mem _ hc)
        omega)
      hnd
    have hg0a : gH 0 a = 1 := by
      unfold gH
      rw [if_neg (by omega), if_pos (Or.inl rfl)]
    rw [show TSP.pathCost gH (0 :: a :: t) = gH 0 a + TSP.pathCost gH (a :: t) from rfl,
        hg0a, htail]
    simp only [List.length_cons]
    push_cast
    ring

end Hub

namespace Hub

/-- A fold whose every step adds a value depending only on the index is
the start plus the sum of those values. -/
theorem foldl_eq_add_sum {ι : Type} (step : Int → ι → Int) (w : ι → Int) :
    ∀ l : List ι, (∀ (b : Int) (i : ι), i ∈ l → step b i = b + w i) →
      ∀ x : Int, l.foldl step x = x + (l.map w).sum
  | [], _, x => by simp
  | i :: t, h, x => by
    rw [List.foldl_cons, h x i (List.mem_cons_self i t),
        foldl_eq_add_sum step w t (fun b j hj => h b j (List.mem_cons_of_mem _ hj)) (x + w i)]
    simp only [List.map_cons, List.sum_cons]
    ring

/-- Summing `0`-or-`50` weights counts the `50` positions. -/
theorem sum_map_ite_mem (P : Nat → Prop) [DecidablePred P] :
    ∀ l : List Nat, (l.map (fun i => if P i then (0 : Int) else 50)).sum =
      50 * l.length - 50 * ((l.countP (fun i => decide (P i)) : Nat) : Int)
  | [] => by simp
  | i :: t => by
    rw [List.map_cons, List.sum_cons, sum_map_ite_mem P t]
    by_cases h : P i
    · rw [if_pos h, List.countP_cons_of_pos _ _ (by simpa using h)]
      simp only [List.length_cons]
      push_cast
      ring
    · rw [if_neg h, List.countP_cons_of_neg _ _ (by simpa using h)]
      simp only [List.length_cons]
      push_cast
      ring

/-- Counting the members of a duplicate-free bounded list inside `range`
recovers its length. -/
theorem countP_range_mem (s : List Nat) (n : Nat) (hnd : s.Nodup) (hlt : ∀ c ∈ s, c < n) :
    (List.range n).countP (fun i => decide (i ∈ s)) = s.length := by
  rw [List.countP_eq_length_filter]
  have hperm : ((List.range n).filter (fun i => decide (i ∈ s))).Perm s := by
    refine List.perm_of_nodup_nodup_toFinset_eq
      (List.Nodup.filter _ (List.nodup_range n)) hnd ?_
    ext x
    simp only [List.mem_toFinset, List.mem_filter, List.mem_range, decide_eq_true_eq]
    constructor
    · exact fun h => h.2
    · exact fun h => ⟨hlt x h, h⟩
  exact hperm.length_eq

/-- Dropping one occurring element of a duplicate-free list shortens it
by exactly one. -/
theorem length_filter_ne (a : Nat) : ∀ (q : List Nat), q.Nodup → a ∈ q →
    (q.filter (fun x => decide (x ≠ a))).length + 1 = q.length
  | [], _, hm => absurd hm (List.not_mem_nil a)
  | b :: t, hnd, hm => by
    rcases List.mem_cons.mp hm with hab | hm'
    · rw [List.filter_cons_of_neg (by simp [hab])]
      have hnin : b ∉ t := (List.nodup_cons.mp hnd).1
      rw [List.filter_eq_self.mpr (fun x hx => by
        simp only [decide_eq_true_eq]
        exact fun he => hnin (by rw [he, hab] at hx; exact hx))]
      simp
    · have hba : b ≠ a := fun he => (List.nodup_cons.mp hnd).1 (he ▸ hm')
      rw [List.filter_cons_of_pos (by simpa using hba)]
      have ih := length_filter_ne a t (List.nodup_cons.mp hnd).2 hm'
      simp only [List.length_cons]
      omega

/-- The two smallest hub distances out of each city: city 0 sees only
`1`s (so its `min2` stays `INF` by the `!= min1` quirk), every other
city sees one `1` and otherwise `100`s. -/
theorem minTwo_gH : ∀ i, i < 20 →
    TSP.minTwo gH 20 i = if i = 0 then (1, TSP.INF) else (1, 100) := by
  with_unfolding_all decide

/-- The bound the C `calculate_bound` computes for any hub search-tree
node of level at least 2: accrued cost, plus `(1+100)/2 = 50` for each
unvisited city, plus `50` for the path's last city. -/
theorem calculate_bound_mk (q : List Nat) (hv : ValidPath q) (h2 : 2 ≤ q.length) (b0 : Int) :
    TSP.calculate_bound gH 20 ⟨q, visitedOf q, TSP.pathCost gH q, b0, q.length⟩ =
      hubBound q.length := by
  have hne : q ≠ [] := valid_ne_nil q hv
  have hpos : 0 < q.length := List.length_pos.mpr hne
  have hgetD : q.getD (q.length - 1) 0 = q.getLast hne :=
    TSP.getD_last_of_length q hne _ (by omega)
  have hlast_mem : q.getLast hne ∈ q := List.getLast_mem hne
  have hlast_pos : 1 ≤ q.getLast hne := getLast_valid_pos q hv h2 hne
  have hlast20 : q.getLast hne < 20 := hv.2.2 _ hlast_mem
  have h0mem : 0 ∈ q := zero_mem_valid q hv
  have htdiv : Int.tdiv (1 + 100) 2 = 50 := by decide
  unfold TSP.calculate_bound
  dsimp only
  refine Eq.trans (foldl_eq_add_sum _
    (fun i => if i ∈ q ∧ i ≠ q.getLast hne then (0 : Int) else 50) (List.range 20) ?_ _) ?_
  · intro b i hi
    have hi20 : i < 20 := List.mem_range.mp hi
    dsimp only
    rw [hgetD]
    by_cases hmem : i ∈ q
    · have hvis : (visitedOf q).getD i false = true := (visitedOf_getD q hv.2.2 i).mpr hmem
      by_cases hil : i = q.getLast hne
      · have hmt : TSP.minTwo gH 20 i = (1, 100) := by
          rw [hil, minTwo_gH _ hlast20, if_neg (by omega)]
        have hm2 : (TSP.minTwo gH 20 i).2 ≠ TSP.INF := by
          rw [hmt]
          unfold TSP.INF
          decide
        have hval : Int.tdiv ((TSP.minTwo gH 20 i).1 + (TSP.minTwo gH 20 i).2) 2 = 50 := by
          rw [hmt]
          decide
        rw [if_pos (Or.inr ⟨by omega, hil⟩), if_neg (fun hc => hc.2.2 hil), if_pos hm2, hval,
            if_neg (fun hc => hc.2 hil)]
      · rw [if_neg (by
            intro hc
            rcases hc with hc | hc
            · exact hc hvis
            · exact hil hc.2),
            if_pos ⟨hmem, hil⟩]
        ring
    · have hvis : (visitedOf q).getD i false = false := by
        have h1 : ¬ (visitedOf q).getD i false = true :=
          fun h => hmem ((visitedOf_getD q hv.2.2 i).mp h)
        exact Bool.not_eq_true _ |>.mp h1
      have hi0 : i ≠ 0 := fun he => hmem (he ▸ h0mem)
      have hmt : TSP.minTwo gH 20 i = (1, 100) := by
        rw [minTwo_gH _ hi20, if_neg hi0]
      have hm2 : (TSP.minTwo gH 20 i).2 ≠ TSP.INF := by
        rw [hmt]
        unfold TSP.INF
        decide
      have hval : Int.tdiv ((TSP.minTwo gH 20 i).1 + (TSP.minTwo gH 20 i).2) 2 = 50 := by
        rw [hmt]
        decide
      rw [if_pos (Or.inl (by rw [hvis]; simp)),
          if_neg (fun hc => by rw [hvis] at hc; simp at hc),
          if_pos hm2, hval, if_neg (fun hc => hmem hc.1)]
  · rw [sum_map_ite_mem]
    have hcnt : (List.range 20).countP
        (fun i => decide (i ∈ q ∧ i ≠ q.getLast hne)) =
        (q.filter (fun x => decide (x ≠ q.getLast hne))).length := by
      rw [show (fun i => decide (i ∈ q ∧ i ≠ q.getLast hne)) =
          (fun i => decide (i ∈ q.filter (fun x => decide (x ≠ q.getLast hne)))) from ?_]
      · exact countP_range_mem _ 20 (List.Nodup.filter _ hv.1)
          (fun c hc => hv.2.2 c (List.mem_of_mem_filter hc))
      · funext i
        rw [decide_eq_decide]
        rw [List.mem_filter]
        simp
    have hflen := length_filter_ne (q.getLast hne) q hv.1 hlast_mem
    rw [hcnt]
    rw [pathCost_valid q hv h2]
    unfold hubBound
    rw [if_neg (by omega)]
    simp only [List.length_range]
    have hq2 : (2 : Int) ≤ (q.length : Int) := by exact_mod_cast h2
    have hfl : ((q.filter (fun x => decide (x ≠ q.getLast hne))).length : Int) =
        (q.length : Int) - 1 := by
      omega
    rw [hfl]
    ring

end Hub

namespace BnB

/-- A one-element queue is a heap. -/
theorem isHeap_singleton {α β : Type} [LinearOrder β] (key : α → β) (x : α) :
    IsHeap key [x] := by
  intro j hjpos
  rw [keyAt_of_le key [x] j (by simpa using hjpos)]
  exact le_top

end BnB

namespace Hub

theorem mkNode_path (p : List Nat) : (mkNode p).path = p := rfl

theorem mkNode_inj (p q : List Nat) (h : mkNode p = mkNode q) : p = q :=
  congrArg TSP.TSPNode.path h

theorem tKey_mkNode (p : List Nat) : TSP.tKey (mkNode p) = hubBound p.length := rfl

theorem hubBound_le4 (k : Nat) (h1 : 1 ≤ k) (h4 : k ≤ 4) : hubBound k ≤ 1051 := by
  unfold hubBound
  split_ifs with h
  · omega
  · push_cast
    omega

theorem hubBound_level (k : Nat) (h1 : 1 ≤ k) (h : hubBound k ≤ 1051) : k ≤ 4 := by
  unfold hubBound at h
  split_ifs at h with hk
  · omega
  · push_cast at h
    omega

theorem hubBound_lt_INF (k : Nat) (h : k ≤ 5) : hubBound k < TSP.INF := by
  unfold hubBound TSP.INF
  split_ifs with hk
  · omega
  · push_cast
    omega

set_option maxRecDepth 20000 in
/-- The root node of the hub search is the level-1 node of path `[0]`. -/
theorem mkNode_root : TSP.tRoot gH 20 = mkNode [0] := by
  with_unfolding_all decide

/-- Branching from the hub node of a path builds exactly the hub node of
the extended path. -/
theorem mkNode_child (p : List Nat) (c : Nat) (hv : ValidPath p) (h1 : 1 ≤ p.length)
    (hc20 : c < 20) (hc0 : c ≠ 0) (hcp : c ∉ p) :
    TSP.tChild gH 20 (mkNode p) c = mkNode (p ++ [c]) := by
  have hne : p ≠ [] := valid_ne_nil p hv
  have hpos : 0 < p.length := List.length_pos.mpr hne
  have hvapp : ValidPath (p ++ [c]) := valid_append p c hv hc20 hcp
  have hgetD : p.getD (p.length - 1) 0 = p.getLast hne :=
    TSP.getD_last_of_length p hne _ (by omega)
  have e1 : (visitedOf p).set c true = visitedOf (p ++ [c]) := (visitedOf_append p c).symm
  have e2 : TSP.pathCost gH p + gH (p.getD (p.length - 1) 0) c =
      TSP.pathCost gH (p ++ [c]) := by
    rw [hgetD]
    exact (TSP.pathCost_append_single gH p hne c).symm
  have e3 : p.length + 1 = (p ++ [c]).length := by simp
  unfold TSP.tChild mkNode
  dsimp only
  rw [e1, e2, e3]
  refine congrArg (fun b => TSP.TSPNode.mk (p ++ [c]) (visitedOf (p ++ [c]))
    (TSP.pathCost gH (p ++ [c])) b (p ++ [c]).length) ?_
  rw [show (⟨p ++ [c], visitedOf (p ++ [c]), TSP.pathCost gH (p ++ [c]), 0,
      (p ++ [c]).length⟩ : TSP.TSPNode) =
      ⟨p ++ [c], visitedOf (p ++ [c]), TSP.pathCost gH (p ++ [c]), 0,
      (p ++ [c]).length⟩ from rfl]
  exact calculate_bound_mk (p ++ [c]) hvapp (by simp; omega) 0

/-- One turn of the branching loop of `tStep` (child construction, child
pruning check, push). -/
def branchStep (current : TSP.TSPNode) (s1 : TSP.TState) (city : Nat) : TSP.TState :=
  if city ≠ 0 ∧ ¬ current.visited.getD city false then
    if (TSP.tChild gH 20 current city).bound < s1.best_cost then
      { s1 with pq := BnB.pq_push TSP.tKey s1.pq (TSP.tChild gH 20 current city) }
    else { s1 with nodes_pruned := s1.nodes_pruned + 1 }
  else s1

/-- What the branching loop of one `tStep` iteration does to the state:
the incumbent, path and explored set are untouched, the heap shape is
kept, and the queue gains exactly the children of the unvisited nonzero
cities. -/
theorem branch_fold_spec (current : TSP.TSPNode)
    (hbnd : ∀ c, c < 20 → (c ≠ 0 ∧ ¬ current.visited.getD c false = true) →
      (TSP.tChild gH 20 current c).bound < TSP.INF) :
    ∀ (l : List Nat), (∀ c ∈ l, c < 20) → ∀ (s1 : TSP.TState), s1.best_cost = TSP.INF →
      BnB.IsHeap TSP.tKey s1.pq →
      ((l.foldl (branchStep current) s1).best_cost = TSP.INF ∧
        (l.foldl (branchStep current) s1).best_path = s1.best_path ∧
        (l.foldl (branchStep current) s1).popped = s1.popped ∧
        BnB.IsHeap TSP.tKey (l.foldl (branchStep current) s1).pq ∧
        (l.foldl (branchStep current) s1).pq.Perm
          ((l.filter (fun c =>
              decide (c ≠ 0 ∧ ¬ current.visited.getD c false = true))).map
            (TSP.tChild gH 20 current) ++ s1.pq))
  | [], _, s1, hb, hh => ⟨hb, rfl, rfl, hh, by simp⟩
  | c :: t, hlt, s1, hb, hh => by
    have hc20 : c < 20 := hlt c (List.mem_cons_self c t)
    have hlt2 : ∀ d ∈ t, d < 20 := fun d hd => hlt d (List.mem_cons_of_mem _ hd)
    by_cases hcond : c ≠ 0 ∧ ¬ current.visited.getD c false = true
    · have hlt_inf : (TSP.tChild gH 20 current c).bound < s1.best_cost := by
        rw [hb]
        exact hbnd c hc20 hcond
      have hstep1 : branchStep current s1 c =
          { s1 with pq := BnB.pq_push TSP.tKey s1.pq (TSP.tChild gH 20 current c) } := by
        unfold branchStep
        rw [if_pos hcond, if_pos hlt_inf]
      rw [List.foldl_cons, hstep1]
      obtain ⟨ih1, ih2, ih3, ih4, ih5⟩ := branch_fold_spec current hbnd t hlt2
        { s1 with pq := BnB.pq_push TSP.tKey s1.pq (TSP.tChild gH 20 current c) }
        hb (BnB.pq_push_isHeap TSP.tKey s1.pq _ hh)
      refine ⟨ih1, ih2, ih3, ih4, ?_⟩
      rw [List.filter_cons_of_pos (by simpa using hcond), List.map_cons]
      refine ih5.trans ?_
      refine List.Perm.trans (List.Perm.append_left _ (BnB.pq_push_perm TSP.tKey s1.pq _)) ?_
      exact List.perm_middle
    · have hstep1 : branchStep current s1 c = s1 := by
        unfold branchStep
        rw [if_neg hcond]
      rw [List.foldl_cons, hstep1]
      obtain ⟨ih1, ih2, ih3, ih4, ih5⟩ := branch_fold_spec current hbnd t hlt2 s1 hb hh
      refine ⟨ih1, ih2, ih3, ih4, ?_⟩
      rw [List.filter_cons_of_neg (by simpa using hcond)]
      exact ih5

end Hub

namespace Hub

/-- 668 distinct valid hub paths of length at most 4: the root path, all
19 two-city paths, all 342 three-city paths, and the 306 four-city paths
ending in city 19. -/
def W : List (List Nat) :=
  [[0]]
    ++ ((List.range 20).drop 1).map (fun a => [0, a])
    ++ ((List.range 20).drop 1).flatMap (fun a =>
        (((List.range 20).drop 1).filter (fun b => decide (b ≠ a))).map (fun b => [0, a, b]))
    ++ ((List.range 19).drop 1).flatMap (fun a =>
        (((List.range 19).drop 1).filter (fun b => decide (b ≠ a))).map
          (fun b => [0, a, b, 19]))

set_option maxRecDepth 40000 in
set_option maxHeartbeats 2000000 in
theorem W_length : W.length = 668 := by
  with_unfolding_all decide

/-- A concatenation of duplicate-free blocks over distinct seeds with no
sharing across blocks is duplicate-free. -/
theorem nodup_flatMap_paths {f : Nat → List (List Nat)} :
    ∀ (l : List Nat), l.Nodup → (∀ a ∈ l, (f a).Nodup) →
      (∀ a ∈ l, ∀ b ∈ l, a ≠ b → ∀ x ∈ f a, x ∉ f b) → (l.flatMap f).Nodup
  | [], _, _, _ => by simp
  | a :: t, hnd, hin, hdisj => by
    rw [List.flatMap_cons, List.nodup_append]
    refine ⟨hin a (List.mem_cons_self a t),
      nodup_flatMap_paths t (List.nodup_cons.mp hnd).2
        (fun b hb => hin b (List.mem_cons_of_mem _ hb))
        (fun b hb c hc hbc => hdisj b (List.mem_cons_of_mem _ hb)
          c (List.mem_cons_of_mem _ hc) hbc), ?_⟩
    intro x hxa hxt
    rw [List.mem_flatMap] at hxt
    obtain ⟨b, hb, hxb⟩ := hxt
    have hab : a ≠ b := fun he => (List.nodup_cons.mp hnd).1 (he ▸ hb)
    exact hdisj a (List.mem_cons_self a t) b (List.mem_cons_of_mem _ hb) hab x hxa hxb

theorem W_nodup : W.Nodup := by
  have hL19 : ((List.range 20).drop 1).Nodup :=
    List.Nodup.sublist (List.drop_sublist 1 _) (List.nodup_range 20)
  have hL18 : ((List.range 19).drop 1).Nodup :=
    List.Nodup.sublist (List.drop_sublist 1 _) (List.nodup_range 19)
  have h2 : (((List.range 20).drop 1).map (fun a => [0, a])).Nodup := by
    refine List.Nodup.map_on ?_ hL19
    intro x _ y _ h
    simpa using h
  have h3 : (((List.range 20).drop 1).flatMap (fun a =>
      (((List.range 20).drop 1).filter (fun b => decide (b ≠ a))).map
        (fun b => [0, a, b]))).Nodup := by
    refine nodup_flatMap_paths _ hL19 ?_ ?_
    · intro a _
      refine List.Nodup.map_on ?_ (List.Nodup.filter _ hL19)
      intro x _ y _ h
      simpa using h
    · intro a _ b _ hab x hxa hxb
      rw [List.mem_map] at hxa hxb
      obtain ⟨c, _, rfl⟩ := hxa
      obtain ⟨d, _, he⟩ := hxb
      simp at he
      exact hab he.1.symm
  have h4 : (((List.range 19).drop 1).flatMap (fun a =>
      (((List.range 19).drop 1).filter (fun b => decide (b ≠ a))).map
        (fun b => [0, a, b, 19]))).Nodup := by
    refine nodup_flatMap_paths _ hL18 ?_ ?_
    · intro a _
      refine List.Nodup.map_on ?_ (List.Nodup.filter _ hL18)
      intro x _ y _ h
      simpa using h
    · intro a _ b _ hab x hxa hxb
      rw [List.mem_map] at hxa hxb
      obtain ⟨c, _, rfl⟩ := hxa
      obtain ⟨d, _, he⟩ := hxb
      simp at he
      exact hab he.1.symm
  have m1 : ∀ x ∈ [[(0 : Nat)]], x.length = 1 := by
    intro x hx
    rw [List.mem_singleton] at hx
    subst hx
    rfl
  have m2 : ∀ x ∈ ((List.range 20).drop 1).map (fun a => [0, a]), x.length = 2 := by
    intro x hx
    rw [List.mem_map] at hx
    obtain ⟨a, -, rfl⟩ := hx
    rfl
  have m3 : ∀ x ∈ ((List.range 20).drop 1).flatMap (fun a =>
      (((List.range 20).drop 1).filter (fun b => decide (b ≠ a))).map
        (fun b => [0, a, b])), x.length = 3 := by
    intro x hx
    rw [List.mem_flatMap] at hx
    obtain ⟨a, -, hx⟩ := hx
    rw [List.mem_map] at hx
    obtain ⟨b, -, rfl⟩ := hx
    rfl
  have m4 : ∀ x ∈ ((List.range 19).drop 1).flatMap (fun a =>
      (((List.range 19).drop 1).filter (fun b => decide (b ≠ a))).map
        (fun b => [0, a, b, 19])), x.length = 4 := by
    intro x hx
    rw [List.mem_flatMap] at hx
    obtain ⟨a, -, hx⟩ := hx
    rw [List.mem_map] at hx
    obtain ⟨b, -, rfl⟩ := hx
    rfl
  unfold W
  rw [List.append_assoc, List.append_assoc, List.nodup_append]
  refine ⟨List.nodup_singleton _, ?_, ?_⟩
  · rw [List.nodup_append]
    refine ⟨h2, ?_, ?_⟩
    · rw [List.nodup_append]
      refine ⟨h3, h4, ?_⟩
      intro x hx3 hx4
      have := m3 x hx3
      have := m4 x hx4
      omega
    · intro x hx2 hx34
      have e2 := m2 x hx2
      rcases List.mem_append.mp hx34 with hx | hx
      · have := m3 x hx
        omega
      · have := m4 x hx
        omega
  · intro x hx1 hxr
    have e1 := m1 x hx1
    rcases List.mem_append.mp hxr with hx | hxr
    · have := m2 x hx
      omega
    rcases List.mem_append.mp hxr with hx | hx
    · have := m3 x hx
      omega
    · have := m4 x hx
      omega

set_option maxRecDepth 40000 in
set_option maxHeartbeats 2000000 in
theorem W_valid : ∀ p ∈ W, ValidPath p ∧ 1 ≤ p.length ∧ p.length ≤ 4 := by
  with_unfolding_all decide

/-- The search-loop invariant on the hub instance after `t` iterations:
the incumbent still holds the `INF` sentinel, the queue is a well-shaped
heap of valid nodes at levels 1-5, the explored set holds `t` valid
nodes at levels 1-4, no partial path is stored twice, the root has been
reached, a node is present or explored exactly when its parent has been
explored, and the queue holds at least `1 + 15 t` nodes. -/
structure Inv (t : Nat) (s : TSP.TState) : Prop where
  best : s.best_cost = TSP.INF
  heap : BnB.IsHeap TSP.tKey s.pq
  poppedLen : s.popped.length = t
  poppedValid : ∀ nd ∈ s.popped, ValidPath nd.path ∧ 1 ≤ nd.path.length ∧
    nd.path.length ≤ 4 ∧ nd = mkNode nd.path
  pqValid : ∀ nd ∈ s.pq, ValidPath nd.path ∧ 1 ≤ nd.path.length ∧
    nd.path.length ≤ 5 ∧ nd = mkNode nd.path
  nodup : ((s.pq ++ s.popped).map TSP.TSPNode.path).Nodup
  rootIn : mkNode [0] ∈ s.pq ∨ mkNode [0] ∈ s.popped
  closure : ∀ p, ValidPath p → 2 ≤ p.length → p.length ≤ 5 →
    ((mkNode p ∈ s.pq ∨ mkNode p ∈ s.popped) ↔ mkNode p.dropLast ∈ s.popped)
  lenLB : 1 + 15 * t ≤ s.pq.length

/-- The invariant holds at the seeded state. -/
theorem inv_init : Inv 0 (TSP.tInit gH 20 []) := by
  have hq : (TSP.tInit gH 20 []).pq = [mkNode [0]] := by
    show [TSP.tRoot gH 20] = [mkNode [0]]
    rw [mkNode_root]
  have hpop : (TSP.tInit gH 20 []).popped = [] := rfl
  refine ⟨rfl, ?_, ?_, ?_, ?_, ?_, ?_, ?_, ?_⟩
  · rw [hq]
    exact BnB.isHeap_singleton TSP.tKey _
  · rw [hpop]
    rfl
  · rw [hpop]
    intro nd hnd
    exact absurd hnd (List.not_mem_nil nd)
  · rw [hq]
    intro nd hnd
    rw [List.mem_singleton] at hnd
    subst hnd
    exact ⟨by decide, by decide, by decide, rfl⟩
  · rw [hq, hpop]
    decide
  · rw [hq]
    exact Or.inl (List.mem_singleton.mpr rfl)
  · intro p hv h2 h5
    rw [hq, hpop]
    constructor
    · intro h
      rcases h with h | h
      · rw [List.mem_singleton] at h
        have := mkNode_inj p [0] h
        rw [this] at h2
        simp at h2
      · exact absurd h (List.not_mem_nil _)
    · intro h
      exact absurd h (List.not_mem_nil _)
  · rw [hq]
    simp

end Hub

namespace Hub

/-- Splitting a list's length by membership in `s`. -/
theorem length_filter_not_mem (s : List Nat) : ∀ (l : List Nat),
    (l.filter (fun c => decide (c ∉ s))).length +
      (l.filter (fun c => decide (c ∈ s))).length = l.length
  | [] => rfl
  | a :: t => by
    have ih := length_filter_not_mem s t
    by_cases h : a ∈ s
    · rw [List.filter_cons_of_neg (by simp [h]), List.filter_cons_of_pos (by simp [h])]
      simp only [List.length_cons]
      omega
    · rw [List.filter_cons_of_pos (by simp [h]), List.filter_cons_of_neg (by simp [h])]
      simp only [List.length_cons]
      omega

/-- One loop iteration of `solve_tsp` on the hub instance preserves the
invariant while fewer than 667 nodes have been popped: the popped node
is at level at most 4 (there are too few shallow nodes for the
best-first order to have exhausted them), it is neither pruned nor
terminal, and its children grow the queue by at least 15. -/
theorem inv_step (t : Nat) (s : TSP.TState) (hInv : Inv t s) (ht : t ≤ 666) :
    Inv (t + 1) (TSP.tStep gH 20 s) := by
  obtain ⟨hbest, hheap, hplen, hpv, hqv, hnodup, hroot, hclos, hlen⟩ := hInv
  have hne : s.pq ≠ [] := by
    intro h0
    rw [h0] at hlen
    simp only [List.length_nil] at hlen
    omega
  obtain ⟨m, rest, he, hperm, hrheap, hmin⟩ := BnB.pq_pop_spec TSP.tKey s.pq hne hheap
  have hmmem : m ∈ s.pq := hperm.subset (List.mem_cons_self m rest)
  obtain ⟨hvm, hm1, hm5, hmk⟩ := hqv m hmmem
  have hrestlen : rest.length + 1 = s.pq.length := by
    have h1 := hperm.length_eq
    simpa using h1
  have hrest_sub : ∀ x ∈ rest, x ∈ s.pq := fun x hx =>
    hperm.subset (List.mem_cons_of_mem m hx)
  have hmem_pq_iff : ∀ x, x ∈ s.pq ↔ x = m ∨ x ∈ rest := by
    intro x
    rw [← hperm.mem_iff, List.mem_cons]
  have hm4 : m.path.length ≤ 4 := by
    by_cases havail : ∃ nd ∈ s.pq, nd.path.length ≤ 4
    · obtain ⟨nd0, hnd0mem, hnd0len⟩ := havail
      obtain ⟨hv0, h01, -, hmk0⟩ := hqv nd0 hnd0mem
      have hk := hmin nd0 hnd0mem
      have e1 : TSP.tKey m = hubBound m.path.length := congrArg TSP.tKey hmk
      have e2 : TSP.tKey nd0 = hubBound nd0.path.length := congrArg TSP.tKey hmk0
      rw [e1, e2] at hk
      exact hubBound_level _ hm1 (le_trans hk (hubBound_le4 _ h01 hnd0len))
    · exfalso
      push_neg at havail
      have hWpop : ∀ (k : Nat) (p : List Nat), ValidPath p → 1 ≤ p.length →
          p.length ≤ 4 → p.length = k → mkNode p ∈ s.popped := by
        intro k
        induction k using Nat.strong_induction_on with
        | _ k ih =>
          intro p hvp hp1 hp4 hpk
          by_cases hk1 : p.length = 1
          · have hp0 : p = [0] := valid_len1 p hvp hk1
            subst hp0
            rcases hroot with hin | hin
            · have h4 := havail _ hin
              rw [mkNode_path] at h4
              simp at h4
            · exact hin
          · have hp2 : 2 ≤ p.length := by omega
            have hvd := valid_dropLast p hvp hp2
            have hldrop : p.dropLast.length = p.length - 1 := List.length_dropLast p
            have hparent : mkNode p.dropLast ∈ s.popped :=
              ih p.dropLast.length (by omega) p.dropLast hvd (by omega) (by omega) rfl
            rcases (hclos p hvp hp2 (by omega)).mpr hparent with hin | hin
            · have h4 := havail _ hin
              rw [mkNode_path] at h4
              omega
            · exact hin
      have hWsub : ∀ p ∈ W, p ∈ s.popped.map TSP.TSPNode.path := by
        intro p hp
        obtain ⟨hvp, h1, h4⟩ := W_valid p hp
        exact List.mem_map_of_mem TSP.TSPNode.path (hWpop p.length p hvp h1 h4 rfl)
      have hcard : W.length ≤ (s.popped.map TSP.TSPNode.path).length := by
        have h1 := List.toFinset_card_of_nodup W_nodup
        have h2 : W.toFinset ⊆ (s.popped.map TSP.TSPNode.path).toFinset := by
          intro x hx
          rw [List.mem_toFinset] at hx ⊢
          exact hWsub x hx
        have h3 := Finset.card_le_card h2
        have h4 := List.toFinset_card_le (s.popped.map TSP.TSPNode.path)
        omega
      rw [List.length_map, hplen, W_length] at hcard
      omega
  have hlvl_m : m.level = m.path.length := congrArg TSP.TSPNode.level hmk
  have hbound_m : m.bound = hubBound m.path.length := congrArg TSP.TSPNode.bound hmk
  have hvis_m : m.visited = visitedOf m.path := congrArg TSP.TSPNode.visited hmk
  have hnot_prune : ¬ (s.best_cost ≤ m.bound) := by
    rw [hbest, hbound_m]
    exact not_le.mpr (hubBound_lt_INF _ (by omega))
  have hnot_term : ¬ (m.level = 20) := by
    rw [hlvl_m]
    omega
  have hbnd : ∀ c, c < 20 → (c ≠ 0 ∧ ¬ m.visited.getD c false = true) →
      (TSP.tChild gH 20 m c).bound < TSP.INF := by
    intro c hc20 hc
    obtain ⟨hc0, hcnv⟩ := hc
    have hcp : c ∉ m.path := fun hmem2 => hcnv (by
      rw [hvis_m]
      exact (visitedOf_getD m.path hvm.2.2 c).mpr hmem2)
    have hch : TSP.tChild gH 20 m c = mkNode (m.path ++ [c]) := by
      conv_lhs => rw [hmk]
      exact mkNode_child m.path c hvm hm1 hc20 hc0 hcp
    rw [hch]
    refine hubBound_lt_INF _ ?_
    simp only [List.length_append, List.length_singleton]
    omega
  have hs1best : ({ s with
      pq := rest
      nodes_explored := s.nodes_explored + 1
      popped := s.popped ++ [m] } : TSP.TState).best_cost = TSP.INF := hbest
  obtain ⟨hF1, hF2, hF3, hF4, hF5⟩ := branch_fold_spec m hbnd (List.range 20)
    (fun c hc => List.mem_range.mp hc)
    { s with pq := rest, nodes_explored := s.nodes_explored + 1, popped := s.popped ++ [m] }
    hs1best hrheap
  have hstep_eq : TSP.tStep gH 20 s = (List.range 20).foldl (branchStep m)
      { s with
        pq := rest
        nodes_explored := s.nodes_explored + 1
        popped := s.popped ++ [m] } := by
    unfold TSP.tStep
    rw [he]
    dsimp only
    rw [if_neg hnot_prune, if_neg hnot_term]
    rfl
  rw [hstep_eq]
  have hF3' : ((List.range 20).foldl (branchStep m)
      { s with
        pq := rest
        nodes_explored := s.nodes_explored + 1
        popped := s.popped ++ [m] }).popped = s.popped ++ [m] := hF3
  have hF5' : ((List.range 20).foldl (branchStep m)
      { s with
        pq := rest
        nodes_explored := s.nodes_explored + 1
        popped := s.popped ++ [m] }).pq.Perm
      (((List.range 20).filter (fun c =>
          decide (c ≠ 0 ∧ ¬ m.visited.getD c false = true))).map
        (TSP.tChild gH 20 m) ++ rest) := hF5
  have hch_mem : ∀ nd, nd ∈ ((List.range 20).filter (fun c =>
      decide (c ≠ 0 ∧ ¬ m.visited.getD c false = true))).map (TSP.tChild gH 20 m) ↔
      ∃ c, c < 20 ∧ c ≠ 0 ∧ c ∉ m.path ∧ nd = mkNode (m.path ++ [c]) := by
    intro nd
    rw [List.mem_map]
    constructor
    · rintro ⟨c, hc, rfl⟩
      rw [List.mem_filter] at hc
      obtain ⟨hcr, hcb⟩ := hc
      rw [decide_eq_true_eq] at hcb
      obtain ⟨hc0, hcv⟩ := hcb
      have hc20 := List.mem_range.mp hcr
      have hcp : c ∉ m.path := fun hmem2 => hcv (by
        rw [hvis_m]
        exact (visitedOf_getD m.path hvm.2.2 c).mpr hmem2)
      refine ⟨c, hc20, hc0, hcp, ?_⟩
      conv_lhs => rw [hmk]
      exact mkNode_child m.path c hvm hm1 hc20 hc0 hcp
    · rintro ⟨c, hc20, hc0, hcp, rfl⟩
      refine ⟨c, ?_, ?_⟩
      · rw [List.mem_filter]
        refine ⟨List.mem_range.mpr hc20, ?_⟩
        rw [decide_eq_true_eq]
        refine ⟨hc0, ?_⟩
        rw [hvis_m]
        intro hv2
        exact hcp ((visitedOf_getD m.path hvm.2.2 c).mp hv2)
      · conv_lhs => rw [hmk]
        exact mkNode_child m.path c hvm hm1 hc20 hc0 hcp
  have hch_len : (((List.range 20).filter (fun c =>
      decide (c ≠ 0 ∧ ¬ m.visited.getD c false = true))).map
      (TSP.tChild gH 20 m)).length = 20 - m.path.length := by
    rw [List.length_map]
    have hcongr : (List.range 20).filter (fun c =>
        decide (c ≠ 0 ∧ ¬ m.visited.getD c false = true)) =
        (List.range 20).filter (fun c => decide (c ∉ m.path)) := by
      refine List.filter_congr ?_
      intro c _
      rw [hvis_m, decide_eq_decide]
      by_cases hcm : c ∈ m.path
      · have hvt : (visitedOf m.path).getD c false = true :=
          (visitedOf_getD m.path hvm.2.2 c).mpr hcm
        constructor
        · rintro ⟨-, hnv⟩
          exact absurd hvt hnv
        · intro hnm
          exact absurd hcm hnm
      · have hvf : (visitedOf m.path).getD c false = false := by
          have h1 : ¬ (visitedOf m.path).getD c false = true :=
            fun h => hcm ((visitedOf_getD m.path hvm.2.2 c).mp h)
          exact (Bool.not_eq_true _).mp h1
        have hc0 : c ≠ 0 := fun he2 => hcm (he2 ▸ zero_mem_valid m.path hvm)
        constructor
        · intro _
          exact hcm
        · intro _
          refine ⟨hc0, fun h => ?_⟩
          rw [hvf] at h
          simp at h
    rw [hcongr]
    have h1 := length_filter_not_mem m.path (List.range 20)
    have h2 := countP_range_mem m.path 20 hvm.1 hvm.2.2
    rw [List.countP_eq_length_filter] at h2
    simp only [List.length_range] at h1
    omega
  refine ⟨hF1, hF4, ?_, ?_, ?_, ?_, ?_, ?_, ?_⟩
  · rw [hF3', List.length_append, hplen]
    rfl
  · intro nd hnd
    rw [hF3'] at hnd
    rcases List.mem_append.mp hnd with h | h
    · exact hpv nd h
    · rw [List.mem_singleton] at h
      subst h
      exact ⟨hvm, hm1, hm4, hmk⟩
  · intro nd hnd
    rcases List.mem_append.mp (hF5'.mem_iff.mp hnd) with h | h
    · obtain ⟨c, hc20, hc0, hcp, rfl⟩ := (hch_mem nd).mp h
      refine ⟨valid_append _ _ hvm hc20 hcp, ?_, ?_, rfl⟩
      · rw [mkNode_path]
        simp
      · rw [mkNode_path]
        simp only [List.length_append, List.length_singleton]
        omega
    · exact hqv nd (hrest_sub nd h)
  · have hbig : (((List.range 20).foldl (branchStep m)
        { s with
          pq := rest
          nodes_explored := s.nodes_explored + 1
          popped := s.popped ++ [m] }).pq ++
        ((List.range 20).foldl (branchStep m)
        { s with
          pq := rest
          nodes_explored := s.nodes_explored + 1
          popped := s.popped ++ [m] }).popped).Perm
        ((((List.range 20).filter (fun c =>
            decide (c ≠ 0 ∧ ¬ m.visited.getD c false = true))).map
          (TSP.tChild gH 20 m)) ++ (s.pq ++ s.popped)) := by
      rw [hF3']
      refine (hF5'.append_right _).trans ?_
      rw [List.append_assoc]
      refine List.Perm.append_left _ ?_
      rw [← List.append_assoc]
      refine (List.perm_append_singleton m _).trans ?_
      exact hperm.append_right s.popped
    rw [(hbig.map TSP.TSPNode.path).nodup_iff, List.map_append, List.nodup_append]
    refine ⟨?_, hnodup, ?_⟩
    · have hmapeq : ((((List.range 20).filter (fun c =>
          decide (c ≠ 0 ∧ ¬ m.visited.getD c false = true))).map
          (TSP.tChild gH 20 m)).map TSP.TSPNode.path) =
          (((List.range 20).filter (fun c =>
            decide (c ≠ 0 ∧ ¬ m.visited.getD c false = true))).map
            (fun c => m.path ++ [c])) := by
        rw [List.map_map]
        rfl
      rw [hmapeq]
      refine List.Nodup.map_on ?_ (List.Nodup.filter _ (List.nodup_range 20))
      intro x _ y _ hxy
      have h1 := List.append_cancel_left hxy
      simpa using h1
    · intro x hx hxold
      rw [List.mem_map] at hx
      obtain ⟨nd, hndc, rfl⟩ := hx
      obtain ⟨c, hc20, hc0, hcp, rfl⟩ := (hch_mem nd).mp hndc
      rw [List.mem_map] at hxold
      obtain ⟨nd2, hnd2mem, hnd2path⟩ := hxold
      have hnd2 : nd2 = mkNode nd2.path := by
        rcases List.mem_append.mp hnd2mem with h | h
        · exact (hqv nd2 h).2.2.2
        · exact (hpv nd2 h).2.2.2
      have hp2 : nd2.path = m.path ++ [c] := hnd2path
      have hnd2' : nd2 = mkNode (m.path ++ [c]) := by
        rw [hnd2, hp2]
      have hin : mkNode (m.path ++ [c]) ∈ s.pq ∨ mkNode (m.path ++ [c]) ∈ s.popped := by
        rcases List.mem_append.mp hnd2mem with h | h
        · exact Or.inl (hnd2' ▸ h)
        · exact Or.inr (hnd2' ▸ h)
      have hvalid_app : ValidPath (m.path ++ [c]) := valid_append _ _ hvm hc20 hcp
      have hpar := (hclos (m.path ++ [c]) hvalid_app
        (by simp only [List.length_append, List.length_singleton]; omega)
        (by simp only [List.length_append, List.length_singleton]; omega)).mp hin
      rw [List.dropLast_concat] at hpar
      have hpaths : m.path ∈ s.pq.map TSP.TSPNode.path :=
        List.mem_map_of_mem TSP.TSPNode.path hmmem
      have hpaths2 : m.path ∈ s.popped.map TSP.TSPNode.path := by
        have h2 := List.mem_map_of_mem TSP.TSPNode.path hpar
        exact h2
      have hdisj := List.disjoint_of_nodup_append (by
        rw [← List.map_append]
        exact hnodup)
      exact hdisj hpaths hpaths2
  · rcases hroot with hin | hin
    · rcases (hmem_pq_iff _).mp hin with he2 | hin2
      · right
        rw [hF3']
        exact List.mem_append.mpr (Or.inr (by rw [he2]; exact List.mem_singleton.mpr rfl))
      · left
        exact hF5'.mem_iff.mpr (List.mem_append.mpr (Or.inr hin2))
    · right
      rw [hF3']
      exact List.mem_append.mpr (Or.inl hin)
  · intro p hvp hp2 hp5
    have hpopF : ∀ x : TSP.TSPNode, x ∈ ((List.range 20).foldl (branchStep m)
        { s with
          pq := rest
          nodes_explored := s.nodes_explored + 1
          popped := s.popped ++ [m] }).popped ↔ x ∈ s.popped ∨ x = m := by
      intro x
      rw [hF3', List.mem_append, List.mem_singleton]
    have hpqF : ∀ x : TSP.TSPNode, x ∈ ((List.range 20).foldl (branchStep m)
        { s with
          pq := rest
          nodes_explored := s.nodes_explored + 1
          popped := s.popped ++ [m] }).pq ↔
        x ∈ (((List.range 20).filter (fun c =>
          decide (c ≠ 0 ∧ ¬ m.visited.getD c false = true))).map
          (TSP.tChild gH 20 m)) ∨ x ∈ rest := by
      intro x
      rw [hF5'.mem_iff, List.mem_append]
    by_cases hpar : p.dropLast = m.path
    · constructor
      · intro _
        rw [hpopF]
        right
        rw [hpar]
        exact hmk.symm
      · intro _
        left
        rw [hpqF]
        left
        have hne2 : p ≠ [] := valid_ne_nil p hvp
        have hdecomp : p.dropLast ++ [p.getLast hne2] = p := List.dropLast_append_getLast hne2
        rw [hpar] at hdecomp
        have hc20 : p.getLast hne2 < 20 := hvp.2.2 _ (List.getLast_mem hne2)
        have hcp : p.getLast hne2 ∉ m.path := by
          have hnd2 : (m.path ++ [p.getLast hne2]).Nodup := by
            rw [hdecomp]
            exact hvp.1
          rw [List.nodup_append] at hnd2
          intro hcm
          exact hnd2.2.2 hcm (List.mem_singleton.mpr rfl)
        have hc0 : p.getLast hne2 ≠ 0 := fun he2 => hcp (he2 ▸ zero_mem_valid m.path hvm)
        rw [hch_mem]
        exact ⟨p.getLast hne2, hc20, hc0, hcp, congrArg mkNode hdecomp.symm⟩
    · have hdl_ne : mkNode p.dropLast ≠ m := by
        intro he2
        have h1 : p.dropLast = m.path := congrArg TSP.TSPNode.path he2
        exact hpar h1
      constructor
      · intro hL
        rcases hL with hpq | hpop
        · rw [hpqF] at hpq
          rcases hpq with hch | hrest2
          · exfalso
            obtain ⟨c, -, -, -, hmkeq⟩ := (hch_mem _).mp hch
            have hpe : p = m.path ++ [c] := mkNode_inj _ _ hmkeq
            rw [hpe, List.dropLast_concat] at hpar
            exact hpar rfl
          · have hin : mkNode p ∈ s.pq := hrest_sub _ hrest2
            have hold := (hclos p hvp hp2 hp5).mp (Or.inl hin)
            rw [hpopF]
            exact Or.inl hold
        · rw [hpopF] at hpop
          rcases hpop with hold | hem
          · have hold2 := (hclos p hvp hp2 hp5).mp (Or.inr hold)
            rw [hpopF]
            exact Or.inl hold2
          · have hin : mkNode p ∈ s.pq := by
              rw [hem]
              exact hmmem
            have hold2 := (hclos p hvp hp2 hp5).mp (Or.inl hin)
            rw [hpopF]
            exact Or.inl hold2
      · intro hR
        rw [hpopF] at hR
        rcases hR with hold | hem
        · rcases (hclos p hvp hp2 hp5).mpr hold with hin | hin
          · rcases (hmem_pq_iff _).mp hin with he2 | hin2
            · right
              rw [hpopF]
              exact Or.inr he2
            · left
              rw [hpqF]
              exact Or.inr hin2
          · right
            rw [hpopF]
            exact Or.inl hin
        · exact absurd hem hdl_ne
  · have hflen : ((List.range 20).foldl (branchStep m)
        { s with
          pq := rest
          nodes_explored := s.nodes_explored + 1
          popped := s.popped ++ [m] }).pq.length =
        (((List.range 20).filter (fun c =>
          decide (c ≠ 0 ∧ ¬ m.visited.getD c false = true))).map
          (TSP.tChild gH 20 m)).length + rest.length := by
      rw [hF5'.length_eq, List.length_append]
    rw [hflen, hch_len]
    omega

end Hub

namespace TSP

/-- Peeling the loop from the back: running `t + 1` iterations equals
running `t` iterations and then, if the queue is still non-empty, one
more step. -/
theorem tRun_succ (graph : Nat → Nat → Int) (n : Nat) (t : Nat) (s : TState) :
    tRun graph n (t + 1) s =
      if (tRun graph n t s).pq.isEmpty then tRun graph n t s
      else tStep graph n (tRun graph n t s) := by
  induction t generalizing s with
  | zero =>
    show (if s.pq.isEmpty then s else tRun graph n 0 (tStep graph n s)) =
      if s.pq.isEmpty then s else tStep graph n s
    by_cases h : s.pq.isEmpty
    · rw [if_pos h, if_pos h]
    · rw [if_neg h, if_neg h]
      rfl
  | succ t ih =>
    by_cases h : s.pq.isEmpty
    · have h1 : ∀ f, tRun graph n (f + 1) s = s := by
        intro f
        show (if s.pq.isEmpty then s else tRun graph n f (tStep graph n s)) = s
        rw [if_pos h]
      rw [h1 (t + 1), h1 t, if_pos h]
    · have h2 : tRun graph n (t + 1 + 1) s = tRun graph n (t + 1) (tStep graph n s) := by
        show (if s.pq.isEmpty then s else _) = _
        rw [if_neg h]
      have h3 : tRun graph n (t + 1) s = tRun graph n t (tStep graph n s) := by
        show (if s.pq.isEmpty then s else _) = _
        rw [if_neg h]
      rw [h2, h3, ih (tStep graph n s)]

end TSP

namespace Hub

/-- On the hub instance the invariant holds after every prefix of the
first 667 loop iterations: by `inv_init` at the seed and `inv_step` at
each step, the queue never empties along the way. -/
theorem hub_run_inv : ∀ t : Nat, t ≤ 667 →
    Inv t (TSP.tRun gH 20 t (TSP.tInit gH 20 [])) := by
  intro t
  induction t with
  | zero =>
    intro _
    exact inv_init
  | succ t ih =>
    intro ht
    have hI := ih (by omega)
    have hpos : 0 < (TSP.tRun gH 20 t (TSP.tInit gH 20 [])).pq.length := by
      have := hI.lenLB
      omega
    have hne : (TSP.tRun gH 20 t (TSP.tInit gH 20 [])).pq.isEmpty = false := by
      rcases hq : (TSP.tRun gH 20 t (TSP.tInit gH 20 [])).pq with _ | ⟨a, l⟩
      · rw [hq] at hpos
        simp at hpos
      · rfl
    have hne' : ¬ ((TSP.tRun gH 20 t (TSP.tInit gH 20 [])).pq.isEmpty = true) := by
      rw [hne]
      exact Bool.false_ne_true
    rw [TSP.tRun_succ, if_neg hne']
    exact inv_step t _ hI (by omega)

end Hub

namespace Claims

/-- **C5** (refuted: the code has no capacity protection).  The claim
says exceeding the fixed 10000-node queue capacity is impossible: either
setup rejects the instance as a fatal configuration error, or every
reachable loop state keeps the queue at or below 10000 nodes.  The
embedded `solve_tsp` performs no setup-time capacity validation, and on
the 20-city hub instance `Hub.gH` (cities at distance 1 from city 0 and
100 from each other, well within `MAX_CITIES = 20`), after 667 loop
iterations the priority queue holds more than 10000 live nodes, at which
point the C `pq_push` (TravelingSalesman.c lines 81-95) writes past the
end of the fixed `nodes[10000]` array with no bounds check — silent
mid-search truncation. -/
theorem tsp_queue_exceeds_fixed_capacity :
    10000 < (TSP.solve_tsp Hub.gH 20 [] 667).pq.length := by
  have h := (Hub.hub_run_inv 667 (by omega)).lenLB
  show 10000 < (TSP.tRun Hub.gH 20 667 (TSP.tInit Hub.gH 20 [])).pq.length
  omega

end Claims
